import Mathlib

/-!
Verification of the `MultiCactusTree` tree-partitioning code
(`progressive/multiCactusTree.py`) and the progressive driver
(`progressive/bin/cactus_progressive.py`) of the cactus repository.

The Python class `MultiCactusTree` wraps a rooted directed graph
(sonLib's `NXTree` over a networkx `DiGraph`).  We embed the tree state
shallowly: the node set and edge list are explicit lists (edge insertion
order is preserved, as networkx adjacency drives child order), edge
weights and node names are partial maps, and the mutable fields
(`rootId`, `subtreeRoots`, `nameToId`, `subtreeSize`) are structure
fields.  Methods that mutate the tree become pure functions returning a
new tree; Python `assert` statements and `KeyError`/`UnboundLocalError`
conditions become `Except String` results.  Branch lengths (Python
floats) are embedded as rationals.
-/

deriving instance DecidableEq for Except

/-- State of a `MultiCactusTree` (wrapping sonLib `NXTree` over a
networkx `DiGraph`).  Fields mirror `MultiCactusTree.__init__` plus the
underlying graph: `subtreeRoots` (ids of subtree roots), `nameToId`,
`subtreeSize`, and the graph data (`nodes`, directed `edges` in
insertion order, per-edge `weight`, per-node `name`, `rootId`). -/
structure MCTree where
  nodes : List Nat
  edges : List (Nat × Nat)
  weight : Nat → Nat → Option Rat
  name : Nat → Option String
  rootId : Nat
  subtreeRoots : List Nat
  nameToId : String → Option Nat
  subtreeSize : Nat

namespace MCTree

/-- `NXTree.getChildren(node)`: successors of `node` in the digraph, in
edge insertion order. -/
def getChildren (t : MCTree) (n : Nat) : List Nat :=
  (t.edges.filter (fun e => e.1 == n)).map (fun e => e.2)

/-- `NXTree.getParent(node)`: the source of the (unique, in a tree)
incoming edge of `node`, or `none`. -/
def getParent (t : MCTree) (n : Nat) : Option Nat :=
  (t.edges.find? (fun e => e.2 == n)).map (fun e => e.1)

/-- `NXTree.isLeaf(node)`: no children. -/
def isLeaf (t : MCTree) (n : Nat) : Bool :=
  (t.getChildren n).isEmpty

/-- `NXTree.hasName(node)`. -/
def hasName (t : MCTree) (n : Nat) : Bool :=
  (t.name n).isSome

/-- `NXTree.getName(node)` (defaulting to the empty string on an
unnamed node). -/
def getName (t : MCTree) (n : Nat) : String :=
  (t.name n).getD ""

/-- `NXTree.setName(node, name)`. -/
def setName (t : MCTree) (n : Nat) (s : String) : MCTree :=
  { t with name := fun m => if m = n then some s else t.name m }

/-- `NXTree.setWeight(parent, child, w)` (edge attribute update). -/
def setWeight (t : MCTree) (a b : Nat) (w : Rat) : MCTree :=
  { t with weight := fun x y => if x = a ∧ y = b then some w else t.weight x y }

/-- `NXTree.getWeight(parent, child)`. -/
def getWeight (t : MCTree) (a b : Nat) : Option Rat :=
  t.weight a b

/-- `if w is not None: self.setWeight(a, b, w)` — the conditional weight
assignment used by `insertAbove`. -/
def setWeightOpt (t : MCTree) (a b : Nat) : Option Rat → MCTree
  | some w => t.setWeight a b w
  | none => t

/-- `nxDg.remove_edge(a, b)`: drops the edge and its weight attribute. -/
def removeEdge (t : MCTree) (a b : Nat) : MCTree :=
  { t with
    edges := t.edges.filter (fun e => !(e.1 == a && e.2 == b)),
    weight := fun x y => if x = a ∧ y = b then none else t.weight x y }

/-- `nxDg.add_node(n)`. -/
def addNode (t : MCTree) (n : Nat) : MCTree :=
  { t with nodes := if n ∈ t.nodes then t.nodes else t.nodes ++ [n] }

/-- `nxDg.add_edge(a, b)`: adds missing endpoints, then appends the edge
if absent (networkx digraphs have no parallel edges).  A freshly created
edge starts with an empty attribute dictionary, so its weight is
absent. -/
def addEdge (t : MCTree) (a b : Nat) : MCTree :=
  let t1 := (t.addNode a).addNode b
  if (a, b) ∈ t1.edges then t1
  else { t1 with edges := t1.edges ++ [(a, b)],
                 weight := fun x y => if x = a ∧ y = b then none else t1.weight x y }

/-- `NXTree.breadthFirstTraversal()`: queue-based breadth-first walk
from the root, children appended in order.  The source iterates a
generator with no explicit bound; the embedding supplies fuel equal to
the node count, which suffices on actual trees (each node is yielded at
most once). -/
def bfsAux (t : MCTree) : Nat → List Nat → List Nat
  | 0, _ => []
  | _, [] => []
  | fuel + 1, n :: queue => n :: bfsAux t fuel (queue ++ t.getChildren n)

/-- `NXTree.breadthFirstTraversal()` from `rootId`. -/
def breadthFirstTraversal (t : MCTree) : List Nat :=
  bfsAux t t.nodes.length [t.rootId]

/-- `MultiCactusTree.getNextIndex`: `sorted(breadthFirstTraversal())[-1] + 1`,
i.e. the maximum visited id plus one. -/
def getNextIndex (t : MCTree) : Nat :=
  (t.breadthFirstTraversal).foldr Nat.max 0 + 1

/-- `sum([self.getChildren(i) for i in curLevel], [])` in
`getSubtreeLeaves`: left-fold concatenation of the children lists. -/
def concatChildren (t : MCTree) (l : List Nat) : List Nat :=
  (l.map t.getChildren).foldl (· ++ ·) []

/-- The `while` loop of `MultiCactusTree.getSubtreeLeaves`:
`while len(nextLevel) <= subtreeSize and len(nextLevel) > len(curLevel):
curLevel = nextLevel; nextLevel = sum(children, [])`.  Each iteration
strictly grows `curLevel` up to the cap, so fuel `subtreeSize + 1`
is never exhausted (proved below). -/
def subtreeLoop (t : MCTree) (k : Nat) : Nat → List Nat → List Nat → List Nat
  | 0, cur, _ => cur
  | fuel + 1, cur, nxt =>
    if nxt.length ≤ k ∧ cur.length < nxt.length then
      subtreeLoop t k fuel nxt (t.concatChildren nxt)
    else cur

/-- `MultiCactusTree.getSubtreeLeaves(node)`: asserts
`len(getChildren(node)) <= subtreeSize`, then runs the frontier loop
starting from `curLevel = []`, `nextLevel = getChildren(node)`. -/
def getSubtreeLeaves (t : MCTree) (n : Nat) : Except String (List Nat) :=
  if (t.getChildren n).length ≤ t.subtreeSize then
    .ok (subtreeLoop t t.subtreeSize (t.subtreeSize + 1) [] (t.getChildren n))
  else
    .error "AssertionError: len(getChildren(node)) <= subtreeSize"

/-- The frontier iteration as the specification words it: start from the
node's direct children; repeatedly replace the current frontier with the
concatenation of its members' children as long as the next frontier's
size is at most `k` and strictly larger than the current frontier's
size. -/
def specFrontier (t : MCTree) (k : Nat) : Nat → List Nat → List Nat
  | 0, cur => cur
  | fuel + 1, cur =>
    let nxt := t.concatChildren cur
    if nxt.length ≤ k ∧ cur.length < nxt.length then
      specFrontier t k fuel nxt
    else cur

/-- Tail of `MultiCactusTree.insertAbove` (source lines 129-135), run in
both branches: `add_node(newNode)`, `setName`, `add_edge(newNode, node)`,
conditional `setWeight(newNode, node, newWeight)`, and registration of a
nonempty `newName` in `nameToId`. -/
def insertAboveFinish (t : MCTree) (node newNode : Nat) (newName : String)
    (newWeight : Option Rat) : MCTree :=
  let t4 := t.addNode newNode
  let t5 := t4.setName newNode newName
  let t6 := t5.addEdge newNode node
  let t7 := t6.setWeightOpt newNode node newWeight
  if newName.length > 0 then
    { t7 with nameToId := fun s => if s = newName then some newNode else t7.nameToId s }
  else t7

/-- `MultiCactusTree.insertAbove(node, newNode, newName, newWeight)`:
if `node` has a parent, transfer the old parent-edge weight onto
`parent → newNode`; otherwise assert `node == rootId` and make `newNode`
the new root; then splice `newNode → node`. -/
def insertAbove (t : MCTree) (node newNode : Nat) (newName : String)
    (newWeight : Option Rat) : Except String MCTree :=
  match t.getParent node with
  | some parent =>
    let oldWeight := t.getWeight parent node
    let t1 := t.removeEdge parent node
    let t2 := t1.addEdge parent newNode
    let t3 := t2.setWeightOpt parent newNode oldWeight
    .ok (insertAboveFinish t3 node newNode newName newWeight)
  | none =>
    if node = t.rootId then
      .ok (insertAboveFinish { t with rootId := newNode } node newNode newName newWeight)
    else .error "AssertionError: node == rootId"

/-- `MultiCactusTree.addOutgroup(ogName, distance)`: assert the name is
unused; if the root is a leaf, first insert a new root above it at half
the distance and halve the remaining distance; then attach the outgroup
leaf to the (possibly new) root at the remaining distance.  Distances
are Python floats, embedded as rationals, so `distance / 2` is exact
halving. -/
def addOutgroup (t : MCTree) (ogName : String) (distance : Rat) :
    Except String MCTree :=
  if (t.nameToId ogName).isSome then
    .error "AssertionError: ogName not in nameToId"
  else
    let step : Except String (MCTree × Rat) :=
      if t.isLeaf t.rootId then
        match t.insertAbove t.rootId t.getNextIndex "" (some (distance / 2)) with
        | .ok t' => .ok (t', distance / 2)
        | .error e => .error e
      else .ok (t, distance)
    match step with
    | .error e => .error e
    | .ok (t1, d) =>
      let newNode := t1.getNextIndex
      let t2 := t1.addEdge t1.rootId newNode
      let t3 := t2.setName newNode ogName
      let t4 := { t3 with nameToId := fun s => if s = ogName then some newNode else t3.nameToId s }
      .ok (t4.setWeight t4.rootId newNode d)

/-- Result type of `MultiCactusTree.getSubtreeRoot`: the source returns
the raw node id when the queried node is the root (`return node`), and
would return a name or `None` from the walk-up loop. -/
inductive SubtreeRootResult where
  | nodeId (n : Nat)
  | rootName (s : String)
  | noResult
  deriving DecidableEq

/-- `MultiCactusTree.getSubtreeRoot(name)` as written in the source:
`node = self.nameToId[name]` raises `KeyError` on an unregistered name;
if `node == rootId` the raw id is returned; otherwise the next
statement is `parent = self.getParent(parent)`, which reads the local
variable `parent` before any assignment and therefore raises
`UnboundLocalError` unconditionally — the `while` loop body is never
reached. -/
def getSubtreeRoot (t : MCTree) (qname : String) :
    Except String SubtreeRootResult :=
  match t.nameToId qname with
  | none => .error "KeyError: name not in nameToId"
  | some node =>
    if node = t.rootId then .ok (.nodeId node)
    else .error "UnboundLocalError: local variable parent referenced before assignment"

/-- Python `name.split('.')` on the character list of a name: always
returns at least one (possibly empty) token. -/
def splitOnDot : List Char → List (List Char)
  | [] => [[]]
  | c :: rest =>
    let r := splitOnDot rest
    if c = '.' then [] :: r
    else
      match r with
      | [] => [[c]]
      | t0 :: ts => (c :: t0) :: ts

/-- `MultiCactusTree.makeSelfName(name, suffix)`: split on `'.'`, append
the suffix to the first token, then re-join the remaining tokens with
dots — the suffix lands before the first dot. -/
def makeSelfName (nm sfx : String) : String :=
  match splitOnDot nm.data with
  | [] => ""
  | t0 :: rest =>
    String.mk ((t0 ++ sfx.data) ++ rest.foldl (fun acc tk => acc ++ '.' :: tk) [])

/-- The guard of the `addSelfEdges` loop body:
`(node in subtreeRoots or isLeaf(node)) and node != rootId`. -/
def qualifies (t : MCTree) (n : Nat) : Prop :=
  (n ∈ t.subtreeRoots ∨ t.isLeaf n) ∧ n ≠ t.rootId

instance (t : MCTree) (n : Nat) : Decidable (t.qualifies n) := by
  unfold qualifies; infer_instance

/-- Loop body of `MultiCactusTree.addSelfEdges`, folded over the
snapshotted breadth-first traversal, threading the tree and the manual
`nextIndex` counter.  `if parent:` is Python truthiness on
`Optional[int]`: false for `None` and for node id 0. -/
def addSelfEdgesAux (sfx : String) : List Nat → MCTree → Nat → Except String MCTree
  | [], t, _ => .ok t
  | node :: rest, t, nextIndex =>
    if t.qualifies node then
      let wgt : Option Rat :=
        match t.getParent node with
        | some p => if p ≠ 0 then t.getWeight p node else none
        | none => none
      match t.insertAbove node nextIndex (makeSelfName (t.getName node) sfx) wgt with
      | .error e => .error e
      | .ok t' =>
        addSelfEdgesAux sfx rest
          { t' with subtreeRoots := t'.subtreeRoots ++ [nextIndex] } (nextIndex + 1)
    else addSelfEdgesAux sfx rest t nextIndex

/-- `MultiCactusTree.addSelfEdges(suffix)`: snapshot the breadth-first
traversal, then insert a self-node above every leaf or subtree-root
other than the global root, registering each new node as a subtree
root. -/
def addSelfEdges (t : MCTree) (sfx : String) : Except String MCTree :=
  addSelfEdgesAux sfx t.breadthFirstTraversal t t.getNextIndex

/-- The qualifying members of the processed prefix of the traversal, in
order: each will have received exactly one self-node. -/
def selfDone (t0 : MCTree) (done : List Nat) : List Nat :=
  done.filter (fun n => decide (t0.qualifies n))

/-- Invariant of the `addSelfEdges` loop after processing the prefix
`done` of the snapshotted traversal.  Writing `N = getNextIndex t0` and
`q = selfDone t0 done` (the qualifying prefix members in traversal
order), the `j`-th qualifying member has received the self-node `N + j`
directly above it, and all data not touched by these insertions agrees
with the original tree `t0`. -/
structure SelfInv (t0 : MCTree) (sfx : String) (done : List Nat) (t : MCTree) : Prop where
  rootEq : t.rootId = t0.rootId
  nodesEq : t.nodes =
    t0.nodes ++ (List.range (selfDone t0 done).length).map (t0.getNextIndex + ·)
  rootsEq : t.subtreeRoots =
    t0.subtreeRoots ++ (List.range (selfDone t0 done).length).map (t0.getNextIndex + ·)
  nameOld : ∀ x, x < t0.getNextIndex → t.name x = t0.name x
  nameNew : ∀ j (hj : j < (selfDone t0 done).length),
    t.name (t0.getNextIndex + j) =
      some (makeSelfName (t0.getName ((selfDone t0 done).get ⟨j, hj⟩)) sfx)
  parOld : ∀ x, x < t0.getNextIndex → x ∉ selfDone t0 done →
    t.getParent x = t0.getParent x
  parNewDown : ∀ j (hj : j < (selfDone t0 done).length),
    t.getParent ((selfDone t0 done).get ⟨j, hj⟩) = some (t0.getNextIndex + j)
  parNewUp : ∀ j (hj : j < (selfDone t0 done).length),
    t.getParent (t0.getNextIndex + j) = t0.getParent ((selfDone t0 done).get ⟨j, hj⟩)
  tgtNodup : (t.edges.map Prod.snd).Nodup
  edgeBound : ∀ e ∈ t.edges, e.1 < t0.getNextIndex + (selfDone t0 done).length ∧
      e.2 < t0.getNextIndex + (selfDone t0 done).length
  edgeMem : ∀ e ∈ t.edges, e.1 ∈ t.nodes ∧ e.2 ∈ t.nodes
  leafEq : ∀ x, x < t0.getNextIndex →
      ((t.getChildren x).isEmpty = (t0.getChildren x).isEmpty)
  wOld : ∀ a b, a < t0.getNextIndex → b < t0.getNextIndex → b ∉ selfDone t0 done →
      t.getWeight a b = t0.getWeight a b
  wNewUp : ∀ j (hj : j < (selfDone t0 done).length), ∀ p,
      t0.getParent ((selfDone t0 done).get ⟨j, hj⟩) = some p →
      t.getWeight p (t0.getNextIndex + j) =
        t0.getWeight p ((selfDone t0 done).get ⟨j, hj⟩)
  wNewDown : ∀ j (hj : j < (selfDone t0 done).length), ∀ p,
      t0.getParent ((selfDone t0 done).get ⟨j, hj⟩) = some p →
      t.getWeight (t0.getNextIndex + j) ((selfDone t0 done).get ⟨j, hj⟩) =
        (if p ≠ 0 then t0.getWeight p ((selfDone t0 done).get ⟨j, hj⟩) else none)

/-- `self.nameToId[self.getName(node)] = node` — registration of a
visited node under its current name. -/
def regName (t : MCTree) (node : Nat) : MCTree :=
  { t with nameToId := fun s =>
      if s = (t.getName node) then some node else t.nameToId s }

/-- Loop body of `MultiCactusTree.nameUnlabeledInternalNodes`, folded
over the breadth-first traversal: an unnamed internal node is named
`"%s%d" % (prefix, count)` and the counter advances; every visited node
is then (re-)registered in `nameToId` under its current name. -/
def nameUnlabeledAux (pfx : String) : List Nat → MCTree → Nat → MCTree
  | [], t, _ => t
  | node :: rest, t, count =>
    if ¬t.isLeaf node ∧ ¬t.hasName node then
      nameUnlabeledAux pfx rest (regName (t.setName node (pfx ++ toString count)) node)
        (count + 1)
    else
      nameUnlabeledAux pfx rest (regName t node) count

/-- `MultiCactusTree.nameUnlabeledInternalNodes(prefix, startIdx)`. -/
def nameUnlabeledInternalNodes (t : MCTree) (pfx : String) (startIdx : Nat) : MCTree :=
  nameUnlabeledAux pfx t.breadthFirstTraversal t startIdx

/-- `MultiCactusTree.traverseSubtree(root, node)`: yield `node`; descend
into its children unless it is a nested subtree root other than `root`.
The source recursion is bounded by tree depth; the embedding supplies
fuel (`nodes.length + 1` at the call site, sufficient on actual
trees). -/
def traverseSubtree (t : MCTree) : Nat → Nat → Nat → List Nat
  | 0, _, _ => []
  | fuel + 1, root, node =>
    node ::
      (if node = root ∨ node ∉ t.subtreeRoots then
        (t.getChildren node).flatMap (traverseSubtree t fuel root)
      else [])

/-- `MultiCactusTree.getSubtreeRootNames()`. -/
def getSubtreeRootNames (t : MCTree) : List String :=
  t.subtreeRoots.map t.getName

/-- `MultiCactusTree.assignSubtreeRootNames(rootNames)`: reset the
subtree-root set to the traversal nodes whose name is in the list. -/
def assignSubtreeRootNames (t : MCTree) (rootNames : List String) : MCTree :=
  { t with subtreeRoots :=
      t.breadthFirstTraversal.filter (fun n => decide (t.getName n ∈ rootNames)) }

/-- Modelled from the spec: the networkx `subgraph(...).copy()` induced
subgraph together with the sonLib `NXTree`/`MultiCactusTree(cpy, 2)`
construction, which is not under `src/`.  Per the spec's
PhylogeneticTree contract (section 3: a single rooted tree with exactly
one root), the copy's root is its unique node without an incoming
edge; the fresh `MultiCactusTree` starts with an empty subtree-root set
and name index and `subtreeSize` 2. -/
def subgraphCopy (t : MCTree) (sub : List Nat) : MCTree :=
  let ns := t.nodes.filter (fun n => decide (n ∈ sub))
  let es := t.edges.filter (fun e => decide (e.1 ∈ sub) && decide (e.2 ∈ sub))
  { nodes := ns
    edges := es
    weight := fun a b => if a ∈ sub ∧ b ∈ sub then t.weight a b else none
    name := fun n => if n ∈ sub then t.name n else none
    rootId := (ns.find? (fun n => es.all (fun e => !(e.2 == n)))).getD 0
    subtreeRoots := []
    nameToId := fun _ => none
    subtreeSize := 2 }

/-- `MultiCactusTree.extractSubTree(name)`: look the name up
(`KeyError` when unregistered), collect the boundary-respecting
subtree, copy the induced subgraph and re-derive its subtree-root set
from the original root names. -/
def extractSubTree (t : MCTree) (qname : String) : Except String MCTree :=
  match t.nameToId qname with
  | none => .error "KeyError: name not in nameToId"
  | some root =>
    let sub := t.traverseSubtree (t.nodes.length + 1) root root
    .ok (assignSubtreeRootNames (subgraphCopy t sub) t.getSubtreeRootNames)

/-- A path that starts at `x`, follows child edges, and never expands a
nested subtree root other than `root` — the spec's "descendants down to
(but not beyond) any nested subtree-root boundary". -/
inductive BoundaryPath (t : MCTree) (root : Nat) : Nat → Nat → Nat → Prop where
  | base (x : Nat) : BoundaryPath t root 0 x x
  | step {x c y : Nat} {n : Nat} :
      (x = root ∨ x ∉ t.subtreeRoots) → c ∈ t.getChildren x →
      BoundaryPath t root n c y → BoundaryPath t root (n + 1) x y

/-- The spec-side closure: `root` plus all its boundary-respecting
descendants. -/
def boundedDescendant (t : MCTree) (root x : Nat) : Prop :=
  ∃ n, BoundaryPath t root n root x

/-- An unrestricted child-edge path (used for reachability inside the
extracted copy, whose breadth-first traversal follows all copied
edges). -/
inductive DescPath (t : MCTree) : Nat → Nat → Prop where
  | base (x : Nat) : DescPath t x x
  | step {x c y : Nat} : c ∈ t.getChildren x → DescPath t c y → DescPath t x y

end MCTree

/-- A concrete 6-node binary-ish tree used as witness input:
`0 → 1, 2`; `1 → 3, 4`; `2 → 5`, subtree size 2. -/
def treeC1 : MCTree :=
  { nodes := [0, 1, 2, 3, 4, 5]
    edges := [(0, 1), (0, 2), (1, 3), (1, 4), (2, 5)]
    weight := fun _ _ => none
    name := fun _ => none
    rootId := 0
    subtreeRoots := []
    nameToId := fun _ => none
    subtreeSize := 2 }

/-- A node with three children under cap 2: `0 → 1, 2, 3`. -/
def treeC2 : MCTree :=
  { nodes := [0, 1, 2, 3]
    edges := [(0, 1), (0, 2), (0, 3)]
    weight := fun _ _ => none
    name := fun _ => none
    rootId := 0
    subtreeRoots := []
    nameToId := fun _ => none
    subtreeSize := 2 }

/-- Witness for C9 on a small named tree (`0 → 1` with node 0 named
"root"): the registered name "root" conflicts, the fresh name "og"
succeeds. -/
def treeC9 : MCTree :=
  { nodes := [0, 1]
    edges := [(0, 1)]
    weight := fun _ _ => none
    name := fun n => if n = 0 then some "root" else if n = 1 then some "leaf" else none
    rootId := 0
    subtreeRoots := [0]
    nameToId := fun s => if s = "root" then some 0 else if s = "leaf" then some 1 else none
    subtreeSize := 2 }

/-- A single-node tree (the root is a leaf), used as C3 witness input. -/
def treeC3 : MCTree :=
  { nodes := [0]
    edges := []
    weight := fun _ _ => none
    name := fun n => if n = 0 then some "L" else none
    rootId := 0
    subtreeRoots := []
    nameToId := fun s => if s = "L" then some 0 else none
    subtreeSize := 2 }

/-- A tree whose root has id 0 — `addSelfEdges` hits the falsy
`if parent:` branch for children of the root. -/
def treeC10 : MCTree :=
  { nodes := [0, 1]
    edges := [(0, 1)]
    weight := fun a b => if a = 0 ∧ b = 1 then some 3 else none
    name := fun n => if n = 0 then some "root" else if n = 1 then some "leaf" else none
    rootId := 0
    subtreeRoots := [0]
    nameToId := fun s => if s = "root" then some 0 else if s = "leaf" then some 1 else none
    subtreeSize := 2 }

/-- Unwrap a successful `addSelfEdges` result for concrete evaluation. -/
def exceptOk : Except String MCTree → Option MCTree
  | .ok t => some t
  | .error _ => none

/-- A well-formed partitioned tree: root 0 ("Anc0") with subtree-root
child 1 ("Anc1") and the leaves 2 ("human.chr1") and 3 ("mouse") under
node 1. -/
def treeC6 : MCTree :=
  { nodes := [0, 1, 2, 3]
    edges := [(0, 1), (1, 2), (1, 3)]
    weight := fun a b =>
      if a = 0 ∧ b = 1 then some 1
      else if a = 1 ∧ b = 2 then some 2
      else if a = 1 ∧ b = 3 then some 3 else none
    name := fun n =>
      if n = 0 then some "Anc0" else if n = 1 then some "Anc1"
      else if n = 2 then some "human.chr1" else if n = 3 then some "mouse" else none
    rootId := 0
    subtreeRoots := [0, 1]
    nameToId := fun s =>
      if s = "Anc0" then some 0 else if s = "Anc1" then some 1
      else if s = "human.chr1" then some 2 else if s = "mouse" then some 3 else none
    subtreeSize := 2 }

/-- A tree with an unnamed internal root above two named leaves. -/
def treeC8 : MCTree :=
  { nodes := [0, 1, 2]
    edges := [(0, 1), (0, 2)]
    weight := fun _ _ => none
    name := fun n => if n = 1 then some "A" else if n = 2 then some "B" else none
    rootId := 0
    subtreeRoots := []
    nameToId := fun _ => none
    subtreeSize := 2 }

/-- A partitioned five-node tree: root Anc0, inner subtree root Anc1
with leaf leafA, and nested subtree root Anc2 with leaf leafB. -/
def treeC7 : MCTree :=
  { nodes := [0, 1, 2, 3, 4]
    edges := [(0, 1), (1, 2), (1, 3), (3, 4)]
    weight := fun _ _ => none
    name := fun n =>
      if n = 0 then some "Anc0" else if n = 1 then some "Anc1"
      else if n = 2 then some "leafA" else if n = 3 then some "Anc2"
      else if n = 4 then some "leafB" else none
    rootId := 0
    subtreeRoots := [0, 1, 3]
    nameToId := fun s =>
      if s = "Anc0" then some 0 else if s = "Anc1" then some 1
      else if s = "leafA" then some 2 else if s = "Anc2" then some 3
      else if s = "leafB" then some 4 else none
    subtreeSize := 2 }

namespace ProgressiveDriver

/-- The schedule interface consumed by `cactus_progressive.py`
(`Schedule.deps`, `Schedule.followOn`, `Schedule.isVirtual`). -/
structure Sched where
  deps : String → List String
  followOn : String → Option String
  isVirtual : String → Bool

/-- The jobTree targets created by the progressive driver:
`ProgressiveDown`, `ProgressiveNext`, `ProgressiveUp` and `FinishUp`,
each parameterised by the event name. -/
inductive Tgt where
  | down (e : String)
  | next (e : String)
  | up (e : String)
  | finish (e : String)
  deriving DecidableEq

/-- The child targets added via `addChildTarget` in each `run` method
(with `--nonRecursive` off): `ProgressiveDown.run` adds a
`ProgressiveDown` per dependency; `ProgressiveNext.run` adds
`ProgressiveUp(event)` (unless virtual) and `ProgressiveDown(followOn)`
— both as child targets; `ProgressiveUp.run` spawns only external
cactus-workflow jobs, out of scope here. -/
def childTargets (s : Sched) : Tgt → List Tgt
  | .down e => (s.deps e).map .down
  | .next e =>
    (if s.isVirtual e then [] else [.up e]) ++
      (match s.followOn e with
       | some f => [.down f]
       | none => [])
  | .up _ => []
  | .finish _ => []

/-- The follow-on target set via `setFollowOnTarget` in each `run`:
`ProgressiveDown` chains to `ProgressiveNext`, `ProgressiveUp` to
`FinishUp`. -/
def followOnTarget (s : Sched) : Tgt → Option Tgt
  | .down e => some (.next e)
  | .next _ => none
  | .up e => some (.finish e)
  | .finish _ => none

/-- Modelled from the spec: the external jobTree executor (the
"submit child/follow-on task capability" of sections 1 and 5).  All
jobs eventually spawned from a target: the target itself, everything
spawned by its child targets, and everything spawned by its
follow-on. -/
def spawnClosure (s : Sched) : Nat → Tgt → List Tgt
  | 0, t => [t]
  | fuel + 1, t =>
    t :: ((childTargets s t).flatMap (spawnClosure s fuel) ++
      (match followOnTarget s t with
       | some g => spawnClosure s fuel g
       | none => []))

/-- Modelled from the spec: jobTree's ordering guarantees.  A target
precedes each of its child targets (children may otherwise run in
parallel with one another); a target's follow-on starts only after the
target and every job spawned beneath the target's children have
completed.  These are all the precedence constraints the executor
enforces. -/
def basePairs (s : Sched) : Nat → Tgt → List (Tgt × Tgt)
  | 0, _ => []
  | fuel + 1, t =>
    ((childTargets s t).map (fun c => (t, c))) ++
    (match followOnTarget s t with
     | some g =>
       ((t :: (childTargets s t).flatMap (spawnClosure s fuel)).map (fun j => (j, g)))
         ++ basePairs s fuel g
     | none => []) ++
    (childTargets s t).flatMap (basePairs s fuel)

/-- Successors of a job in the precedence graph. -/
def succs (ps : List (Tgt × Tgt)) (x : Tgt) : List Tgt :=
  (ps.filter (fun p => p.1 == x)).map (fun p => p.2)

/-- Graph search computing every job strictly after the start set. -/
def reachAux (ps : List (Tgt × Tgt)) : Nat → List Tgt → List Tgt → List Tgt
  | 0, _, acc => acc
  | fuel + 1, frontier, acc =>
    match frontier with
    | [] => acc
    | x :: rest =>
      if x ∈ acc then reachAux ps fuel rest acc
      else reachAux ps fuel (rest ++ succs ps x) (acc ++ [x])

/-- Strict happens-before: `y` is reachable from `x` through the
precedence pairs.  Two jobs neither of which happens-before the other
may be executed concurrently. -/
def hb (ps : List (Tgt × Tgt)) (fuel : Nat) (x y : Tgt) : Prop :=
  y ∈ reachAux ps fuel (succs ps x) []

instance (ps : List (Tgt × Tgt)) (fuel : Nat) (x y : Tgt) : Decidable (hb ps fuel x y) := by
  unfold hb
  infer_instance

/-- A two-event schedule: real events "A" and "B" with no dependencies
and `followOn("A") = "B"` — a minimal follow-on chain of siblings. -/
def schedAB : Sched :=
  { deps := fun _ => []
    followOn := fun e => if e = "A" then some "B" else none
    isVirtual := fun _ => false }

/-- All precedence constraints of the driver run started at
`ProgressiveDown("A")` under `schedAB`. -/
def pairsAB : List (Tgt × Tgt) := basePairs schedAB 8 (.down "A")

end ProgressiveDriver

section SubtreeLeavesProofs

open MCTree

/-- Fuel adequacy for the source loop: with `cur` below the cap, fuel
`k + 1 - cur.length` already reaches the fixed point, so any larger
fuel gives the same answer. -/
theorem subtreeLoop_fuel_stable (t : MCTree) (k : Nat) :
    ∀ f₁ f₂ cur nxt, k + 1 - cur.length ≤ f₁ → k + 1 - cur.length ≤ f₂ →
      subtreeLoop t k f₁ cur nxt = subtreeLoop t k f₂ cur nxt := by
  intro f₁
  induction f₁ using Nat.strong_induction_on with
  | _ f₁ ih =>
    intro f₂ cur nxt h₁ h₂
    match f₁, f₂ with
    | 0, 0 => rfl
    | 0, f₂ + 1 =>
      simp only [subtreeLoop]
      have : ¬(nxt.length ≤ k ∧ cur.length < nxt.length) := by omega
      simp [this]
    | f₁ + 1, 0 =>
      simp only [subtreeLoop]
      have : ¬(nxt.length ≤ k ∧ cur.length < nxt.length) := by omega
      simp [this]
    | f₁ + 1, f₂ + 1 =>
      simp only [subtreeLoop]
      by_cases h : nxt.length ≤ k ∧ cur.length < nxt.length
      · simp only [h, if_true]
        exact ih f₁ (Nat.lt_succ_self _) f₂ nxt _ (by omega) (by omega)
      · simp [h]

/-- The source loop agrees with the spec-worded iteration once the
first step is taken: starting the source loop at `(cur, concat cur)`
equals the spec iteration started at `cur`. -/
theorem subtreeLoop_eq_specFrontier (t : MCTree) (k : Nat) :
    ∀ fuel cur, k + 1 - cur.length ≤ fuel →
      subtreeLoop t k fuel cur (t.concatChildren cur) = specFrontier t k fuel cur := by
  intro fuel
  induction fuel with
  | zero => intro cur _; rfl
  | succ fuel ih =>
    intro cur h
    simp only [subtreeLoop, specFrontier]
    by_cases hc : (t.concatChildren cur).length ≤ k ∧ cur.length < (t.concatChildren cur).length
    · simp only [hc, if_true]
      exact ih _ (by omega)
    · simp [hc]

/-- The spec iteration never exceeds the cap when started below it. -/
theorem specFrontier_length_le (t : MCTree) (k : Nat) :
    ∀ fuel cur, cur.length ≤ k → (specFrontier t k fuel cur).length ≤ k := by
  intro fuel
  induction fuel with
  | zero => intro cur h; exact h
  | succ fuel ih =>
    intro cur h
    simp only [specFrontier]
    by_cases hc : (t.concatChildren cur).length ≤ k ∧ cur.length < (t.concatChildren cur).length
    · simp only [hc, if_true]
      exact ih _ hc.1
    · simpa [hc] using h

/-- C1: for every tree and node whose direct-children count is at most
`subtreeSize`, `getSubtreeLeaves` succeeds and returns exactly the
frontier computed by the spec's iteration (start from the direct
children; replace the frontier by the concatenation of its members'
children while the next frontier is at most `subtreeSize` and strictly
larger); consequently the result has size at most `subtreeSize`. -/
theorem getSubtreeLeaves_eq_specFrontier (t : MCTree) (n : Nat)
    (h : (t.getChildren n).length ≤ t.subtreeSize) :
    t.getSubtreeLeaves n =
      .ok (specFrontier t t.subtreeSize (t.subtreeSize + 1) (t.getChildren n)) ∧
    (specFrontier t t.subtreeSize (t.subtreeSize + 1) (t.getChildren n)).length
      ≤ t.subtreeSize := by
  constructor
  · simp only [getSubtreeLeaves, h, if_true]
    congr 1
    by_cases hn : (t.getChildren n).length = 0
    · -- empty children: both sides stop immediately with `[]`
      rw [List.length_eq_zero] at hn
      rw [hn]
      simp only [subtreeLoop, specFrontier]
      have hcc : t.concatChildren [] = [] := rfl
      rw [hcc]
      simp [subtreeLoop, specFrontier]
    · -- nonempty children: the source loop takes its first step, then
      -- coincides with the spec iteration
      have hstep : subtreeLoop t t.subtreeSize (t.subtreeSize + 1) [] (t.getChildren n) =
          subtreeLoop t t.subtreeSize t.subtreeSize (t.getChildren n)
            (t.concatChildren (t.getChildren n)) := by
        simp only [subtreeLoop, List.length_nil]
        have : (t.getChildren n).length ≤ t.subtreeSize ∧ 0 < (t.getChildren n).length := by
          omega
        simp [this]
      rw [hstep]
      rw [subtreeLoop_fuel_stable t t.subtreeSize t.subtreeSize (t.subtreeSize + 1) _ _
        (by omega) (by omega)]
      exact subtreeLoop_eq_specFrontier t t.subtreeSize (t.subtreeSize + 1) _ (by omega)
  · exact specFrontier_length_le t t.subtreeSize _ _ h

/-- Witness for C1 at `treeC1`, node 0: the hypothesis holds and the
returned frontier is the expected one of size at most 2. -/
theorem getSubtreeLeaves_eq_specFrontier_witness :
    (treeC1.getChildren 0).length ≤ treeC1.subtreeSize ∧
    treeC1.getSubtreeLeaves 0 =
      .ok (MCTree.specFrontier treeC1 treeC1.subtreeSize (treeC1.subtreeSize + 1)
        (treeC1.getChildren 0)) ∧
    (MCTree.specFrontier treeC1 treeC1.subtreeSize (treeC1.subtreeSize + 1)
        (treeC1.getChildren 0)).length ≤ treeC1.subtreeSize := by
  refine ⟨by decide, ?_⟩
  exact getSubtreeLeaves_eq_specFrontier treeC1 0 (by decide)

/-- C2 counterexample: on a node whose direct-children count (3)
strictly exceeds `subtreeSize` (2), `getSubtreeLeaves` does not complete
without error: the guarding `assert` fails. -/
theorem getSubtreeLeaves_overCap_counterexample :
    treeC2.getSubtreeLeaves 0 =
      .error "AssertionError: len(getChildren(node)) <= subtreeSize" := by
  decide

/-- C2 amended: for every node whose direct-children count strictly
exceeds `subtreeSize`, `getSubtreeLeaves` fails with the assertion
error — the over-cap node is rejected, not accepted as-is. -/
theorem getSubtreeLeaves_overCap_asserts (t : MCTree) (n : Nat)
    (h : t.subtreeSize < (t.getChildren n).length) :
    t.getSubtreeLeaves n =
      .error "AssertionError: len(getChildren(node)) <= subtreeSize" := by
  simp only [getSubtreeLeaves]
  have : ¬((t.getChildren n).length ≤ t.subtreeSize) := by omega
  simp [this]

/-- Witness for the amended C2 at `treeC2`, node 0. -/
theorem getSubtreeLeaves_overCap_asserts_witness :
    treeC2.subtreeSize < (treeC2.getChildren 0).length ∧
    treeC2.getSubtreeLeaves 0 =
      .error "AssertionError: len(getChildren(node)) <= subtreeSize" := by
  exact ⟨by decide, getSubtreeLeaves_overCap_asserts treeC2 0 (by decide)⟩

end SubtreeLeavesProofs

section AddOutgroupProofs

open MCTree

/-- C9: `addOutgroup` fails with the name-conflict assertion exactly
when the outgroup name is already registered.  The assertion is the
first statement of the method, so on conflict the error is surfaced
immediately and no tree is produced (the embedding returns only the
error); on a fresh name the method always succeeds, so it never fails
with a conflict. -/
theorem addOutgroup_conflict (t : MCTree) (ogName : String) (d : Rat) :
    ((t.nameToId ogName).isSome →
      t.addOutgroup ogName d = .error "AssertionError: ogName not in nameToId") ∧
    (t.nameToId ogName = none → ∃ T, t.addOutgroup ogName d = .ok T) := by
  constructor
  · intro h
    simp [addOutgroup, h]
  · intro h
    simp only [addOutgroup, h, Option.isSome_none, Bool.false_eq_true, if_false]
    by_cases hleaf : t.isLeaf t.rootId
    · -- root is a leaf: `insertAbove` is called on the root itself
      -- and its own assert `node == rootId` passes
      simp only [hleaf, if_true]
      rcases hp : t.getParent t.rootId with _ | p
      · simp [insertAbove, hp]
      · simp [insertAbove, hp]
    · simp [hleaf]

/-- Witness for C9 at `treeC9`: conflicting name errors, fresh name
succeeds. -/
theorem addOutgroup_conflict_witness :
    treeC9.addOutgroup "root" 1 = .error "AssertionError: ogName not in nameToId" ∧
    ∃ T, treeC9.addOutgroup "og" 1 = .ok T :=
  ⟨(addOutgroup_conflict treeC9 "root" 1).1 (by decide),
   (addOutgroup_conflict treeC9 "og" 1).2 (by decide)⟩

end AddOutgroupProofs

section AddOutgroupShape

open MCTree

/-- C3: the effect of `addOutgroup(ogName, distance)`.
Case A (root is a leaf; a well-formed tree whose root is a leaf is a
single node `r` with no edges): the result has a new root `r+1` with
exactly the two children `r` (the original root-leaf) and `r+2` (the
new outgroup leaf), each at half the specified distance.
Case B (root not a leaf): exactly one new leaf `getNextIndex` is
attached to the existing root at the full distance, and no other node,
edge, name, weight, root or subtree-root data changes. -/
theorem addOutgroup_shape (t : MCTree) (ogName : String) (d : Rat)
    (hconf : t.nameToId ogName = none) :
    (∀ r, t.nodes = [r] → t.edges = [] → t.rootId = r →
      ∃ T, t.addOutgroup ogName d = .ok T ∧ T.rootId = r + 1 ∧
        T.getChildren (r + 1) = [r, r + 2] ∧
        T.getWeight (r + 1) r = some (d / 2) ∧
        T.getWeight (r + 1) (r + 2) = some (d / 2) ∧
        T.isLeaf r ∧ T.isLeaf (r + 2) ∧ T.name (r + 2) = some ogName) ∧
    (t.isLeaf t.rootId = false → t.rootId ∈ t.nodes →
      t.getNextIndex ∉ t.nodes → t.rootId ≠ t.getNextIndex →
      (∀ e ∈ t.edges, e.1 ≠ t.getNextIndex ∧ e.2 ≠ t.getNextIndex) →
      ∃ T, t.addOutgroup ogName d = .ok T ∧ T.rootId = t.rootId ∧
        T.edges = t.edges ++ [(t.rootId, t.getNextIndex)] ∧
        T.nodes = t.nodes ++ [t.getNextIndex] ∧
        T.subtreeRoots = t.subtreeRoots ∧
        T.name t.getNextIndex = some ogName ∧
        (∀ m, m ≠ t.getNextIndex → T.name m = t.name m) ∧
        T.getWeight t.rootId t.getNextIndex = some d ∧
        (∀ a b, ¬(a = t.rootId ∧ b = t.getNextIndex) →
          T.getWeight a b = t.getWeight a b) ∧
        T.getChildren t.rootId = t.getChildren t.rootId ++ [t.getNextIndex] ∧
        T.isLeaf t.getNextIndex) := by
  constructor
  · -- case A
    intro r hnodes hedges hroot
    have hchr : t.getChildren r = [] := by
      simp [getChildren, hedges]
    have hgni : t.getNextIndex = r + 1 := by
      simp [getNextIndex, breadthFirstTraversal, hnodes, hroot, bfsAux, hchr]
    have hleaf : t.isLeaf r = true := by
      simp [isLeaf, hchr]
    have hpar : t.getParent r = none := by
      simp [getParent, hedges]
    have h1 : (r + 1 : Nat) ≠ r := by omega
    have h2 : (r + 2 : Nat) ≠ r := by omega
    have h3 : (r + 2 : Nat) ≠ r + 1 := by omega
    have hins : t.insertAbove r (r + 1) "" (some (d / 2)) =
        .ok { nodes := [r, r + 1], edges := [(r + 1, r)],
              weight := fun x y => if x = r + 1 ∧ y = r then some (d / 2)
                else if x = r + 1 ∧ y = r then none else t.weight x y,
              name := fun m => if m = r + 1 then some "" else t.name m,
              rootId := r + 1, subtreeRoots := t.subtreeRoots,
              nameToId := t.nameToId, subtreeSize := t.subtreeSize } := by
      simp [insertAbove, hpar, insertAboveFinish, addNode, addEdge, setName, setWeight,
        setWeightOpt, hnodes, hedges, hroot, h1]
    refine ⟨{ nodes := [r, r + 1, r + 2], edges := [(r + 1, r), (r + 1, r + 2)],
              weight := fun x y => if x = r + 1 ∧ y = r + 2 then some (d / 2)
                else if x = r + 1 ∧ y = r + 2 then none
                else if x = r + 1 ∧ y = r then some (d / 2)
                else if x = r + 1 ∧ y = r then none else t.weight x y,
              name := fun m => if m = r + 2 then some ogName
                else if m = r + 1 then some "" else t.name m,
              rootId := r + 1, subtreeRoots := t.subtreeRoots,
              nameToId := fun s => if s = ogName then some (r + 2) else t.nameToId s,
              subtreeSize := t.subtreeSize }, ?_, rfl, ?_, ?_, ?_, ?_, ?_, ?_⟩
    · simp only [addOutgroup, hconf, Option.isSome_none, Bool.false_eq_true, if_false,
        hroot, hgni, hleaf, if_true, hins]
      simp [getNextIndex, breadthFirstTraversal, bfsAux, getChildren, addEdge, addNode,
        setName, setWeight, setWeightOpt, h1, h2, h3]
    · simp [getChildren, h1, h2, h3]
    · simp [getWeight, h1, h2, h3]
    · simp [getWeight, h1, h2, h3]
    · simp [isLeaf, getChildren, h1, h2, h3]
    · simp [isLeaf, getChildren, h1, h2, h3]
    · simp [h1, h2, h3]
  · -- case B
    intro hleaf hrootmem hfresh hne hedgefresh
    have hmem : (t.rootId, t.getNextIndex) ∉ t.edges := fun h => (hedgefresh _ h).2 rfl
    have hfil : t.edges.filter (fun e => e.1 == t.getNextIndex) = [] := by
      rw [List.filter_eq_nil_iff]
      intro e he
      simpa using (hedgefresh e he).1
    refine ⟨{ nodes := t.nodes ++ [t.getNextIndex],
              edges := t.edges ++ [(t.rootId, t.getNextIndex)],
              weight := fun x y => if x = t.rootId ∧ y = t.getNextIndex then some d
                else if x = t.rootId ∧ y = t.getNextIndex then none
                else t.weight x y,
              name := fun m => if m = t.getNextIndex then some ogName else t.name m,
              rootId := t.rootId, subtreeRoots := t.subtreeRoots,
              nameToId := fun s => if s = ogName then some t.getNextIndex else t.nameToId s,
              subtreeSize := t.subtreeSize }, ?_, rfl, rfl, rfl, rfl, ?_, ?_, ?_, ?_, ?_, ?_⟩
    · simp only [addOutgroup, hconf, Option.isSome_none, Bool.false_eq_true, if_false,
        hleaf]
      simp [addEdge, addNode, setName, setWeight, hrootmem, hfresh, hmem]
    · simp
    · intro m hm; simp [hm]
    · simp [getWeight]
    · intro a b hab; simp [getWeight, hab]
    · simp [getChildren, List.filter_append]
    · simp only [isLeaf, getChildren, List.filter_append, hfil]
      simp [hne]

end AddOutgroupShape

/-- Witness for C3: case A applied to the single-leaf tree `treeC3`
(new root 1 with children 0 and 2, each at half distance) and case B
applied to `treeC9` (root keeps its id, one new outgroup child at full
distance). -/
theorem addOutgroup_shape_witness :
    (∃ T, treeC3.addOutgroup "og" 10 = .ok T ∧ T.rootId = 0 + 1 ∧
      T.getChildren (0 + 1) = [0, 0 + 2] ∧
      T.getWeight (0 + 1) 0 = some (10 / 2) ∧
      T.getWeight (0 + 1) (0 + 2) = some (10 / 2) ∧
      T.isLeaf 0 ∧ T.isLeaf (0 + 2) ∧ T.name (0 + 2) = some "og") ∧
    (∃ T, treeC9.addOutgroup "og" 10 = .ok T ∧ T.rootId = treeC9.rootId ∧
      T.edges = treeC9.edges ++ [(treeC9.rootId, treeC9.getNextIndex)] ∧
      T.nodes = treeC9.nodes ++ [treeC9.getNextIndex] ∧
      T.subtreeRoots = treeC9.subtreeRoots ∧
      T.name treeC9.getNextIndex = some "og" ∧
      (∀ m, m ≠ treeC9.getNextIndex → T.name m = treeC9.name m) ∧
      T.getWeight treeC9.rootId treeC9.getNextIndex = some 10 ∧
      (∀ a b, ¬(a = treeC9.rootId ∧ b = treeC9.getNextIndex) →
        T.getWeight a b = treeC9.getWeight a b) ∧
      T.getChildren treeC9.rootId = treeC9.getChildren treeC9.rootId ++ [treeC9.getNextIndex] ∧
      T.isLeaf treeC9.getNextIndex) :=
  ⟨(addOutgroup_shape treeC3 "og" 10 (by decide)).1 0 rfl rfl rfl,
   (addOutgroup_shape treeC9 "og" 10 (by decide)).2 (by decide) (by decide)
     (by decide) (by decide) (by decide)⟩

section GetSubtreeRootProofs

open MCTree

/-- C5 evidence: on `treeC9` (a partitioned two-node tree whose root 0
is the only subtree root), looking up the registered non-root leaf
"leaf" raises `UnboundLocalError` (the loop variable is read before
assignment) instead of returning the nearest subtree-root ancestor
"root"; looking up the unregistered name "ghost" raises `KeyError`
instead of returning an absent result; the only non-raising case is the
root itself, which returns a raw node id, not a name. -/
theorem getSubtreeRoot_raises :
    treeC9.getSubtreeRoot "leaf" =
      .error "UnboundLocalError: local variable parent referenced before assignment" ∧
    treeC9.getSubtreeRoot "ghost" = .error "KeyError: name not in nameToId" ∧
    treeC9.getSubtreeRoot "root" = .ok (.nodeId 0) := by
  decide

end GetSubtreeRootProofs

section ListHelpers

/-- Filtering away elements that never satisfy the search predicate
does not change the first hit. -/
theorem find?_filter_imp {α : Type} (l : List α) (p q : α → Bool)
    (h : ∀ x ∈ l, p x = true → q x = true) :
    (l.filter q).find? p = l.find? p := by
  induction l with
  | nil => rfl
  | cons a tl ih =>
    rcases hq : q a with _ | _
    · have hp : p a = false := by
        rcases hp : p a with _ | _
        · rfl
        · exact absurd (h a (List.mem_cons_self a tl) hp) (by simp [hq])
      simp only [List.filter_cons, hq, if_neg]
      rw [List.find?_cons_of_neg _ (by simp [hp])]
      exact ih (fun x hx hpx => h x (List.mem_cons_of_mem a hx) hpx)
    · have hfc : (a :: tl).filter q = a :: tl.filter q := by simp [List.filter_cons, hq]
      rw [hfc]
      rcases hp : p a with _ | _
      · rw [List.find?_cons_of_neg _ (by simp [hp]), List.find?_cons_of_neg _ (by simp [hp])]
        exact ih (fun x hx hpx => h x (List.mem_cons_of_mem a hx) hpx)
      · rw [List.find?_cons_of_pos _ hp, List.find?_cons_of_pos _ hp]

/-- Element bound by the running maximum. -/
theorem le_foldr_max (l : List Nat) (x : Nat) (hx : x ∈ l) :
    x ≤ l.foldr Nat.max 0 := by
  induction l with
  | nil => cases hx
  | cons a tl ih =>
    rcases List.mem_cons.1 hx with rfl | h
    · exact Nat.le_max_left _ _
    · exact Nat.le_trans (ih h) (Nat.le_max_right _ _)

end ListHelpers

section BfsLemmas

open MCTree

/-- Every id yielded by the breadth-first traversal is below
`getNextIndex` (the traversal maximum plus one). -/
theorem mem_bfs_lt_getNextIndex (t : MCTree) (x : Nat)
    (hx : x ∈ t.breadthFirstTraversal) : x < t.getNextIndex := by
  have := le_foldr_max _ _ hx
  unfold getNextIndex
  omega

/-- In a graph whose root and edge endpoints lie in the node set, the
breadth-first traversal stays inside the node set. -/
theorem mem_bfs_mem_nodes (t : MCTree)
    (hR : t.rootId ∈ t.nodes)
    (hEN : ∀ e ∈ t.edges, e.1 ∈ t.nodes ∧ e.2 ∈ t.nodes) :
    ∀ x ∈ t.breadthFirstTraversal, x ∈ t.nodes := by
  have key : ∀ fuel queue, (∀ n ∈ queue, n ∈ t.nodes) →
      ∀ x ∈ bfsAux t fuel queue, x ∈ t.nodes := by
    intro fuel
    induction fuel with
    | zero => intro queue _ x hx; simp [bfsAux] at hx
    | succ fuel ih =>
      intro queue hq x hx
      match queue with
      | [] => simp [bfsAux] at hx
      | n :: rest =>
        simp only [bfsAux, List.mem_cons] at hx
        rcases hx with rfl | hx
        · exact hq x (List.mem_cons_self _ _)
        · refine ih _ ?_ x hx
          intro m hm
          rcases List.mem_append.1 hm with hm | hm
          · exact hq m (List.mem_cons_of_mem _ hm)
          · -- m is a child of n, hence an edge target
            simp only [getChildren, List.mem_map] at hm
            obtain ⟨e, he, rfl⟩ := hm
            exact (hEN e (List.mem_of_mem_filter he)).2
  intro x hx
  exact key _ _ (fun n hn => by simpa using (List.mem_singleton.1 hn ▸ hR)) x hx

end BfsLemmas

section FieldLemmas

open MCTree

theorem removeEdge_edges (t : MCTree) (a b : Nat) :
    (t.removeEdge a b).edges = t.edges.filter (fun e => !(e.1 == a && e.2 == b)) := rfl

theorem removeEdge_weight (t : MCTree) (a b x y : Nat) :
    (t.removeEdge a b).weight x y = if x = a ∧ y = b then none else t.weight x y := rfl

theorem removeEdge_nodes (t : MCTree) (a b : Nat) : (t.removeEdge a b).nodes = t.nodes := rfl

theorem removeEdge_name (t : MCTree) (a b : Nat) : (t.removeEdge a b).name = t.name := rfl

theorem removeEdge_rootId (t : MCTree) (a b : Nat) : (t.removeEdge a b).rootId = t.rootId := rfl

theorem removeEdge_subtreeRoots (t : MCTree) (a b : Nat) :
    (t.removeEdge a b).subtreeRoots = t.subtreeRoots := rfl

theorem addNode_nodes_of_mem (t : MCTree) (n : Nat) (h : n ∈ t.nodes) :
    t.addNode n = t := by
  simp [addNode, h]

theorem addNode_nodes_of_not_mem (t : MCTree) (n : Nat) (h : n ∉ t.nodes) :
    t.addNode n = { t with nodes := t.nodes ++ [n] } := by
  simp [addNode, h]

theorem setName_name (t : MCTree) (n : Nat) (s : String) (m : Nat) :
    (t.setName n s).name m = if m = n then some s else t.name m := rfl

theorem setWeightOpt_weight_self (t : MCTree) (a b : Nat) (w : Option Rat)
    (h : t.weight a b = none) : (t.setWeightOpt a b w).weight a b = w := by
  cases w with
  | none => exact h
  | some w0 => simp [setWeightOpt, setWeight]

theorem setWeightOpt_weight_other (t : MCTree) (a b x y : Nat) (w : Option Rat)
    (h : ¬(x = a ∧ y = b)) : (t.setWeightOpt a b w).weight x y = t.weight x y := by
  cases w with
  | none => rfl
  | some w0 => simp [setWeightOpt, setWeight, h]

theorem setWeightOpt_edges (t : MCTree) (a b : Nat) (w : Option Rat) :
    (t.setWeightOpt a b w).edges = t.edges := by
  cases w <;> rfl

theorem setWeightOpt_nodes (t : MCTree) (a b : Nat) (w : Option Rat) :
    (t.setWeightOpt a b w).nodes = t.nodes := by
  cases w <;> rfl

theorem setWeightOpt_name (t : MCTree) (a b : Nat) (w : Option Rat) :
    (t.setWeightOpt a b w).name = t.name := by
  cases w <;> rfl

theorem setWeightOpt_rootId (t : MCTree) (a b : Nat) (w : Option Rat) :
    (t.setWeightOpt a b w).rootId = t.rootId := by
  cases w <;> rfl

theorem setWeightOpt_subtreeRoots (t : MCTree) (a b : Nat) (w : Option Rat) :
    (t.setWeightOpt a b w).subtreeRoots = t.subtreeRoots := by
  cases w <;> rfl

theorem addEdge_of_not_mem (t : MCTree) (a b : Nat) (h : (a, b) ∉ t.edges) :
    t.addEdge a b =
      { t with nodes := ((t.addNode a).addNode b).nodes,
               edges := t.edges ++ [(a, b)],
               weight := fun x y => if x = a ∧ y = b then none else t.weight x y } := by
  have h1 : ((t.addNode a).addNode b).edges = t.edges := rfl
  have h2 : ((t.addNode a).addNode b).weight = t.weight := rfl
  simp only [addEdge, h1, h2, h, if_neg]
  rfl

end FieldLemmas

section InsertAboveEffect

open MCTree

theorem ite_nameToId_edges (c : Prop) [Decidable c] (u : MCTree) (f : String → Option Nat) :
    (if c then { u with nameToId := f } else u).edges = u.edges := by split <;> rfl

theorem ite_nameToId_nodes (c : Prop) [Decidable c] (u : MCTree) (f : String → Option Nat) :
    (if c then { u with nameToId := f } else u).nodes = u.nodes := by split <;> rfl

theorem ite_nameToId_name (c : Prop) [Decidable c] (u : MCTree) (f : String → Option Nat) :
    (if c then { u with nameToId := f } else u).name = u.name := by split <;> rfl

theorem ite_nameToId_weight (c : Prop) [Decidable c] (u : MCTree) (f : String → Option Nat) :
    (if c then { u with nameToId := f } else u).weight = u.weight := by split <;> rfl

theorem ite_nameToId_rootId (c : Prop) [Decidable c] (u : MCTree) (f : String → Option Nat) :
    (if c then { u with nameToId := f } else u).rootId = u.rootId := by split <;> rfl

theorem ite_nameToId_subtreeRoots (c : Prop) [Decidable c] (u : MCTree)
    (f : String → Option Nat) :
    (if c then { u with nameToId := f } else u).subtreeRoots = u.subtreeRoots := by
  split <;> rfl

/-- Projections of `insertAboveFinish` under freshness side conditions:
the edge `s → y` is appended, `s` is named `nm`, the new edge carries
exactly the supplied optional weight, and nothing else changes. -/
theorem insertAboveFinish_props (t : MCTree) (y s : Nat) (nm : String) (w : Option Rat)
    (hsmem : s ∈ t.nodes) (hymem : y ∈ t.nodes) (hedge : (s, y) ∉ t.edges) :
    (insertAboveFinish t y s nm w).edges = t.edges ++ [(s, y)] ∧
    (insertAboveFinish t y s nm w).nodes = t.nodes ∧
    (insertAboveFinish t y s nm w).rootId = t.rootId ∧
    (insertAboveFinish t y s nm w).subtreeRoots = t.subtreeRoots ∧
    (∀ m, (insertAboveFinish t y s nm w).name m = if m = s then some nm else t.name m) ∧
    (insertAboveFinish t y s nm w).weight s y = w ∧
    (∀ a b, ¬(a = s ∧ b = y) →
      (insertAboveFinish t y s nm w).weight a b = t.weight a b) := by
  have h4 : t.addNode s = t := addNode_nodes_of_mem t s hsmem
  have h5edges : (t.setName s nm).edges = t.edges := rfl
  have h5nodes : (t.setName s nm).nodes = t.nodes := rfl
  have hedge5 : (s, y) ∉ (t.setName s nm).edges := by rw [h5edges]; exact hedge
  have h6 : (t.setName s nm).addEdge s y =
      { t.setName s nm with
        nodes := (((t.setName s nm).addNode s).addNode y).nodes,
        edges := (t.setName s nm).edges ++ [(s, y)],
        weight := fun x y' => if x = s ∧ y' = y then none
          else (t.setName s nm).weight x y' } :=
    addEdge_of_not_mem _ s y hedge5
  have hsmem5 : s ∈ (t.setName s nm).nodes := hsmem
  have h6n1 : (t.setName s nm).addNode s = t.setName s nm :=
    addNode_nodes_of_mem _ s hsmem5
  have h6nodes : (((t.setName s nm).addNode s).addNode y).nodes = t.nodes := by
    rw [h6n1]
    have hy5 : y ∈ (t.setName s nm).nodes := hymem
    rw [addNode_nodes_of_mem _ y hy5]
    rfl
  simp only [insertAboveFinish, h4, h6, h6nodes]
  refine ⟨?_, ?_, ?_, ?_, ?_, ?_, ?_⟩
  · rw [ite_nameToId_edges, setWeightOpt_edges]
    rfl
  · rw [ite_nameToId_nodes, setWeightOpt_nodes]
  · rw [ite_nameToId_rootId, setWeightOpt_rootId]
    rfl
  · rw [ite_nameToId_subtreeRoots, setWeightOpt_subtreeRoots]
    rfl
  · intro m
    rw [ite_nameToId_name, setWeightOpt_name]
    rfl
  · rw [ite_nameToId_weight]
    exact setWeightOpt_weight_self _ s y w (by simp)
  · intro a b hab
    rw [ite_nameToId_weight, setWeightOpt_weight_other _ s y a b w hab]
    simp [hab]
    rfl

end InsertAboveEffect

section InsertAboveMain

open MCTree

/-- Effect of `insertAbove(node=y, newNode=s, newName=nm, newWeight=w)`
when `y` has parent `p` and `s` is globally fresh: the parent edge is
rerouted through `s` (old weight moved onto `p → s`), the new edge
`s → y` carries exactly `w`, and all other data is untouched. -/
theorem insertAbove_effect (t : MCTree) (y s : Nat) (nm : String) (w : Option Rat)
    (p : Nat)
    (hpar : t.getParent y = some p)
    (hsE : ∀ e ∈ t.edges, e.1 ≠ s ∧ e.2 ≠ s)
    (hsN : s ∉ t.nodes)
    (hpN : p ∈ t.nodes) (hyN : y ∈ t.nodes)
    (hsy : s ≠ y) (hsp : s ≠ p) :
    ∃ T, t.insertAbove y s nm w = .ok T ∧
      T.edges = t.edges.filter (fun e => !(e.1 == p && e.2 == y)) ++ [(p, s), (s, y)] ∧
      T.nodes = t.nodes ++ [s] ∧
      T.rootId = t.rootId ∧
      T.subtreeRoots = t.subtreeRoots ∧
      (∀ m, m ≠ s → T.name m = t.name m) ∧
      T.name s = some nm ∧
      T.getWeight p s = t.getWeight p y ∧
      T.getWeight s y = w ∧
      T.getWeight p y = none ∧
      (∀ a b, ¬(a = p ∧ b = y) → ¬(a = p ∧ b = s) → ¬(a = s ∧ b = y) →
        T.getWeight a b = t.getWeight a b) := by
  have hpless : (p, s) ∉ (t.removeEdge p y).edges := by
    rw [removeEdge_edges]
    intro hmem
    exact (hsE _ (List.mem_of_mem_filter hmem)).2 rfl
  have h2 : (t.removeEdge p y).addEdge p s =
      { t.removeEdge p y with
        nodes := (((t.removeEdge p y).addNode p).addNode s).nodes,
        edges := (t.removeEdge p y).edges ++ [(p, s)],
        weight := fun x y' => if x = p ∧ y' = s then none
          else (t.removeEdge p y).weight x y' } :=
    addEdge_of_not_mem _ p s hpless
  have h2nodes : (((t.removeEdge p y).addNode p).addNode s).nodes = t.nodes ++ [s] := by
    have hp1 : (t.removeEdge p y).addNode p = t.removeEdge p y :=
      addNode_nodes_of_mem _ p hpN
    rw [hp1, addNode_nodes_of_not_mem (t.removeEdge p y) s hsN]
    rfl
  -- projections of t3 = (removeEdge; addEdge; setWeightOpt)
  have ht3edges : (((t.removeEdge p y).addEdge p s).setWeightOpt p s (t.getWeight p y)).edges
      = t.edges.filter (fun e => !(e.1 == p && e.2 == y)) ++ [(p, s)] := by
    rw [setWeightOpt_edges, h2]
    rfl
  have ht3nodes : (((t.removeEdge p y).addEdge p s).setWeightOpt p s (t.getWeight p y)).nodes
      = t.nodes ++ [s] := by
    rw [setWeightOpt_nodes, h2]
    exact h2nodes
  have ht3name : (((t.removeEdge p y).addEdge p s).setWeightOpt p s (t.getWeight p y)).name
      = t.name := by
    rw [setWeightOpt_name, h2]
    rfl
  have ht3root : (((t.removeEdge p y).addEdge p s).setWeightOpt p s (t.getWeight p y)).rootId
      = t.rootId := by
    rw [setWeightOpt_rootId, h2]
    rfl
  have ht3sub :
      (((t.removeEdge p y).addEdge p s).setWeightOpt p s (t.getWeight p y)).subtreeRoots
      = t.subtreeRoots := by
    rw [setWeightOpt_subtreeRoots, h2]
    rfl
  have ht3wps : (((t.removeEdge p y).addEdge p s).setWeightOpt p s (t.getWeight p y)).weight p s
      = t.getWeight p y := by
    refine setWeightOpt_weight_self _ p s _ ?_
    rw [h2]
    simp
  have ht3wother : ∀ a b, ¬(a = p ∧ b = s) →
      (((t.removeEdge p y).addEdge p s).setWeightOpt p s (t.getWeight p y)).weight a b
      = if a = p ∧ b = y then none else t.weight a b := by
    intro a b hab
    rw [setWeightOpt_weight_other _ p s a b _ hab, h2]
    simp [hab]
    rfl
  -- preconditions of the finishing half
  have hsmem3 : s ∈ (((t.removeEdge p y).addEdge p s).setWeightOpt p s (t.getWeight p y)).nodes := by
    rw [ht3nodes]; exact List.mem_append_right _ (List.mem_singleton_self s)
  have hymem3 : y ∈ (((t.removeEdge p y).addEdge p s).setWeightOpt p s (t.getWeight p y)).nodes := by
    rw [ht3nodes]; exact List.mem_append_left _ hyN
  have hedge3 : (s, y) ∉ (((t.removeEdge p y).addEdge p s).setWeightOpt p s (t.getWeight p y)).edges := by
    rw [ht3edges]
    intro hmem
    rcases List.mem_append.1 hmem with hmem | hmem
    · exact (hsE _ (List.mem_of_mem_filter hmem)).1 rfl
    · have : (s, y) = (p, s) := List.mem_singleton.1 hmem
      exact hsp (congrArg Prod.fst this)
  obtain ⟨f1, f2, f3, f4, f5, f6, f7⟩ :=
    insertAboveFinish_props _ y s nm w hsmem3 hymem3 hedge3
  refine ⟨insertAboveFinish
      (((t.removeEdge p y).addEdge p s).setWeightOpt p s (t.getWeight p y)) y s nm w,
      ?_, ?_, ?_, ?_, ?_, ?_, ?_, ?_, ?_, ?_, ?_⟩
  · simp only [insertAbove, hpar]
  · rw [f1, ht3edges, List.append_assoc]
    rfl
  · rw [f2, ht3nodes]
  · rw [f3, ht3root]
  · rw [f4, ht3sub]
  · intro m hm
    rw [f5 m, if_neg hm, ht3name]
  · rw [f5 s, if_pos rfl]
  · show (insertAboveFinish _ y s nm w).weight p s = t.getWeight p y
    rw [f7 p s (fun h => hsp (h.1.symm)), ht3wps]
  · exact f6
  · show (insertAboveFinish _ y s nm w).weight p y = none
    rw [f7 p y (fun h => hsp (h.1.symm)),
      ht3wother p y (fun h => hsy (h.2.symm))]
    simp
  · intro a b h1 h2' h3'
    show (insertAboveFinish _ y s nm w).weight a b = t.getWeight a b
    rw [f7 a b h3', ht3wother a b h2', if_neg h1]
    rfl

end InsertAboveMain

section SelfEdgeHelpers

open MCTree

theorem selfDone_append (t0 : MCTree) (done : List Nat) (y : Nat) :
    selfDone t0 (done ++ [y]) =
      selfDone t0 done ++ (if t0.qualifies y then [y] else []) := by
  unfold selfDone
  rw [List.filter_append]
  congr 1
  by_cases h : t0.qualifies y <;> simp [h]

/-- Injectivity of edge targets under a `Nodup` target list. -/
theorem nodup_map_snd_inj {l : List (Nat × Nat)} (h : (l.map Prod.snd).Nodup) :
    ∀ e1 ∈ l, ∀ e2 ∈ l, e1.2 = e2.2 → e1 = e2 := by
  induction l with
  | nil => intro e1 h1; exact absurd h1 (List.not_mem_nil e1)
  | cons a tl ih =>
    simp only [List.map_cons, List.nodup_cons] at h
    intro e1 h1 e2 h2 heq
    rcases List.mem_cons.1 h1 with h1a | h1tl
    · rcases List.mem_cons.1 h2 with h2a | h2tl
      · rw [h1a, h2a]
      · exfalso
        apply h.1
        rw [h1a] at heq
        rw [heq]
        exact List.mem_map_of_mem Prod.snd h2tl
    · rcases List.mem_cons.1 h2 with h2a | h2tl
      · exfalso
        apply h.1
        rw [h2a] at heq
        rw [← heq]
        exact List.mem_map_of_mem Prod.snd h1tl
      · exact ih h.2 e1 h1tl e2 h2tl heq

/-- `getParent` exposes a real edge of the graph. -/
theorem getParent_mem_edges (t : MCTree) (y p : Nat) (h : t.getParent y = some p) :
    (p, y) ∈ t.edges := by
  unfold getParent at h
  rcases hf : t.edges.find? (fun e => e.2 == y) with _ | e
  · rw [hf] at h; cases h
  · rw [hf] at h
    have he : e ∈ t.edges := List.mem_of_find?_eq_some hf
    have hp : e.2 = y := by simpa using List.find?_some hf
    have h1 : e.1 = p := by simpa using h
    rw [← h1, ← hp]
    exact he

/-- Rerouting the `p → y` edge through a fresh `s` leaves every other
node's parent untouched. -/
theorem getParent_shape_other (T t : MCTree) (p y s : Nat)
    (hE : T.edges = t.edges.filter (fun e => !(e.1 == p && e.2 == y)) ++ [(p, s), (s, y)])
    (x : Nat) (hxy : x ≠ y) (hxs : x ≠ s) :
    T.getParent x = t.getParent x := by
  have hsmall : List.find? (fun e => e.2 == x) [(p, s), (s, y)] = none := by
    rw [List.find?_cons_of_neg _ (by simp; exact fun h => hxs h.symm),
      List.find?_cons_of_neg _ (by simp; exact fun h => hxy h.symm)]
    rfl
  have h1 : (t.edges.filter (fun e => !(e.1 == p && e.2 == y))).find? (fun e => e.2 == x) =
      t.edges.find? (fun e => e.2 == x) := by
    apply find?_filter_imp
    intro e _ hpe
    have h2 : e.2 = x := by simpa using hpe
    simp [h2, hxy]
  unfold getParent
  rw [hE, List.find?_append, h1, hsmall, Option.or_none]

/-- After the reroute, `y`'s parent is the fresh node `s` (target
uniqueness makes `p → y` the only incoming edge of `y`). -/
theorem getParent_shape_y (T t : MCTree) (p y s : Nat)
    (hE : T.edges = t.edges.filter (fun e => !(e.1 == p && e.2 == y)) ++ [(p, s), (s, y)])
    (hnd : (t.edges.map Prod.snd).Nodup)
    (hpar : t.getParent y = some p)
    (hsy : s ≠ y) :
    T.getParent y = some s := by
  have hmem : (p, y) ∈ t.edges := getParent_mem_edges t y p hpar
  have hfil : (t.edges.filter (fun e => !(e.1 == p && e.2 == y))).find? (fun e => e.2 == y)
      = none := by
    rw [List.find?_eq_none]
    intro e he hpe
    have h2 : e.2 = y := by simpa using hpe
    have heq : e = (p, y) :=
      nodup_map_snd_inj hnd e (List.mem_of_mem_filter he) (p, y) hmem h2
    have hkeep := List.of_mem_filter he
    rw [heq] at hkeep
    simp at hkeep
  have hsmall : List.find? (fun e => e.2 == y) [(p, s), (s, y)] = some (s, y) := by
    rw [List.find?_cons_of_neg _ (by simp; exact fun h => hsy h),
      List.find?_cons_of_pos _ (by simp)]
  unfold getParent
  rw [hE, List.find?_append, hfil, hsmall]
  rfl

/-- After the reroute, the fresh node `s`'s parent is `p` (no existing
edge targets `s`). -/
theorem getParent_shape_s (T t : MCTree) (p y s : Nat)
    (hE : T.edges = t.edges.filter (fun e => !(e.1 == p && e.2 == y)) ++ [(p, s), (s, y)])
    (hsE : ∀ e ∈ t.edges, e.2 ≠ s) :
    T.getParent s = some p := by
  have hfil : (t.edges.filter (fun e => !(e.1 == p && e.2 == y))).find? (fun e => e.2 == s)
      = none := by
    rw [List.find?_eq_none]
    intro e he hpe
    have h2 : e.2 = s := by simpa using hpe
    exact hsE e (List.mem_of_mem_filter he) h2
  have hsmall : List.find? (fun e => e.2 == s) [(p, s), (s, y)] = some (p, s) := by
    rw [List.find?_cons_of_pos _ (by simp)]
  unfold getParent
  rw [hE, List.find?_append, hfil, hsmall]
  rfl

/-- Children of a node other than `p` and `s` are untouched by the
reroute. -/
theorem getChildren_shape_other (T t : MCTree) (p y s : Nat)
    (hE : T.edges = t.edges.filter (fun e => !(e.1 == p && e.2 == y)) ++ [(p, s), (s, y)])
    (x : Nat) (hxp : x ≠ p) (hxs : x ≠ s) :
    T.getChildren x = t.getChildren x := by
  have hpx : ¬(p = x) := fun h => hxp h.symm
  have hsx : ¬(s = x) := fun h => hxs h.symm
  unfold getChildren
  rw [hE, List.filter_append]
  have h2 : ([(p, s), (s, y)].filter (fun e => e.1 == x)) = [] := by
    simp [List.filter_cons, hpx, hsx]
  rw [h2, List.append_nil]
  congr 1
  rw [List.filter_filter]
  apply List.filter_congr
  intro e he
  rcases he1 : (e.1 == x) with _ | _
  · simp
  · have hex : e.1 = x := by simpa using he1
    simp [hex, hpx]
    exact Or.inl hxp

/-- The rerouted parent `p` keeps a nonempty child list (it gains `s`). -/
theorem getChildren_shape_p_ne_nil (T t : MCTree) (p y s : Nat)
    (hE : T.edges = t.edges.filter (fun e => !(e.1 == p && e.2 == y)) ++ [(p, s), (s, y)]) :
    T.getChildren p ≠ [] := by
  unfold getChildren
  rw [hE]
  intro hcon
  rw [List.map_eq_nil_iff] at hcon
  have hmf : (p, s) ∈ (t.edges.filter (fun e => !(e.1 == p && e.2 == y))
      ++ [(p, s), (s, y)]).filter (fun e => e.1 == p) :=
    List.mem_filter.2 ⟨by simp, by simp⟩
  rw [hcon] at hmf
  exact absurd hmf (List.not_mem_nil _)

end SelfEdgeHelpers

section SelfInvLemmas

open MCTree

theorem selfDone_nil (t0 : MCTree) : selfDone t0 [] = [] := rfl

theorem get_congr {l1 l2 : List Nat} (he : l1 = l2) {j : Nat}
    (hj1 : j < l1.length) (hj2 : j < l2.length) :
    l1.get ⟨j, hj1⟩ = l2.get ⟨j, hj2⟩ := by subst he; rfl

theorem get_append_length (l : List Nat) (a : Nat)
    (h : l.length < (l ++ [a]).length) :
    (l ++ [a]).get ⟨l.length, h⟩ = a := by
  induction l with
  | nil => rfl
  | cons b tl ih => exact ih (by simp)

/-- The invariant initially holds on the unmodified tree. -/
theorem selfInv_init (t0 : MCTree) (sfx : String)
    (hE0 : ∀ e ∈ t0.edges, e.1 < t0.getNextIndex ∧ e.2 < t0.getNextIndex)
    (hEN0 : ∀ e ∈ t0.edges, e.1 ∈ t0.nodes ∧ e.2 ∈ t0.nodes)
    (hnd : (t0.edges.map Prod.snd).Nodup) :
    SelfInv t0 sfx [] t0 := by
  refine ⟨rfl, by simp [selfDone_nil], by simp [selfDone_nil],
    fun x _ => rfl, ?_, fun x _ _ => rfl, ?_, ?_, hnd, ?_, hEN0,
    fun x _ => rfl, fun a b _ _ _ => rfl, ?_, ?_⟩
  · intro j hj; rw [selfDone_nil] at hj; exact absurd hj (by simp)
  · intro j hj; rw [selfDone_nil] at hj; exact absurd hj (by simp)
  · intro j hj; rw [selfDone_nil] at hj; exact absurd hj (by simp)
  · intro e he; rw [selfDone_nil]; simpa using hE0 e he
  · intro j hj; rw [selfDone_nil] at hj; exact absurd hj (by simp)
  · intro j hj; rw [selfDone_nil] at hj; exact absurd hj (by simp)

/-- The invariant only looks at `done` through `selfDone`. -/
theorem selfInv_of_selfDone_eq (t0 : MCTree) (sfx : String) (d1 d2 : List Nat) (t : MCTree)
    (h : selfDone t0 d1 = selfDone t0 d2) (hi : SelfInv t0 sfx d1 t) :
    SelfInv t0 sfx d2 t := by
  obtain ⟨f1, f2, f3, f4, f5, f6, f7, f8, f9, f10, f11, f12, f13, f14, f15⟩ := hi
  rw [h] at f2 f3 f6 f10 f13
  refine ⟨f1, f2, f3, f4, ?_, f6, ?_, ?_, f9, f10, f11, f12, f13, ?_, ?_⟩
  · intro j hj
    have hj1 : j < (selfDone t0 d1).length := by rw [h]; exact hj
    have hval := f5 j hj1
    have hg : (selfDone t0 d1).get ⟨j, hj1⟩ = (selfDone t0 d2).get ⟨j, hj⟩ :=
      get_congr h hj1 hj
    rw [hg] at hval
    exact hval
  · intro j hj
    have hj1 : j < (selfDone t0 d1).length := by rw [h]; exact hj
    have hval := f7 j hj1
    have hg : (selfDone t0 d1).get ⟨j, hj1⟩ = (selfDone t0 d2).get ⟨j, hj⟩ :=
      get_congr h hj1 hj
    rw [hg] at hval
    exact hval
  · intro j hj
    have hj1 : j < (selfDone t0 d1).length := by rw [h]; exact hj
    have hval := f8 j hj1
    have hg : (selfDone t0 d1).get ⟨j, hj1⟩ = (selfDone t0 d2).get ⟨j, hj⟩ :=
      get_congr h hj1 hj
    rw [hg] at hval
    exact hval
  · intro j hj
    have hj1 : j < (selfDone t0 d1).length := by rw [h]; exact hj
    intro p hp
    have hg : (selfDone t0 d1).get ⟨j, hj1⟩ = (selfDone t0 d2).get ⟨j, hj⟩ :=
      get_congr h hj1 hj
    rw [← hg] at hp
    have hval := f14 j hj1 p hp
    rw [hg] at hval
    exact hval
  · intro j hj
    have hj1 : j < (selfDone t0 d1).length := by rw [h]; exact hj
    intro p hp
    have hg : (selfDone t0 d1).get ⟨j, hj1⟩ = (selfDone t0 d2).get ⟨j, hj⟩ :=
      get_congr h hj1 hj
    rw [← hg] at hp
    have hval := f15 j hj1 p hp
    rw [hg] at hval
    exact hval

/-- Membership in a child list from the corresponding edge. -/
theorem mem_getChildren_of_edge (t : MCTree) (a b : Nat) (h : (a, b) ∈ t.edges) :
    b ∈ t.getChildren a := by
  unfold getChildren
  exact List.mem_map_of_mem _ (List.mem_filter.2 ⟨h, by simp⟩)

end SelfInvLemmas

section AddSelfEdgesInduction

open MCTree

theorem addSelfEdgesAux_spec (t0 : MCTree) (sfx : String)
    (hE0 : ∀ e ∈ t0.edges, e.1 < t0.getNextIndex ∧ e.2 < t0.getNextIndex)
    (hN0 : ∀ x ∈ t0.nodes, x < t0.getNextIndex)
    (hEN0 : ∀ e ∈ t0.edges, e.1 ∈ t0.nodes ∧ e.2 ∈ t0.nodes)
    (hRmem : t0.rootId ∈ t0.nodes)
    (hLnd : t0.breadthFirstTraversal.Nodup)
    (hP : ∀ x ∈ t0.breadthFirstTraversal, x ≠ t0.rootId → (t0.getParent x).isSome) :
    ∀ todo done t, t0.breadthFirstTraversal = done ++ todo →
      SelfInv t0 sfx done t →
      ∃ T, addSelfEdgesAux sfx todo t
            (t0.getNextIndex + (selfDone t0 done).length) = .ok T ∧
        SelfInv t0 sfx (done ++ todo) T := by
  intro todo
  induction todo with
  | nil =>
    intro done t hsplit hinv
    exact ⟨t, rfl, by rw [List.append_nil]; exact hinv⟩
  | cons y rest ih =>
    intro done t hsplit hinv
    have hyL : y ∈ t0.breadthFirstTraversal := by
      rw [hsplit]; exact List.mem_append_right _ (List.mem_cons_self _ _)
    have hyN : y < t0.getNextIndex := mem_bfs_lt_getNextIndex t0 y hyL
    have hymem0 : y ∈ t0.nodes := mem_bfs_mem_nodes t0 hRmem hEN0 y hyL
    have hynotdone : y ∉ done := by
      have hnd2 : (done ++ y :: rest).Nodup := by rw [← hsplit]; exact hLnd
      rw [List.nodup_append] at hnd2
      exact fun hmem => hnd2.2.2 hmem (List.mem_cons_self _ _)
    have hynq : y ∉ selfDone t0 done := fun h => hynotdone (List.mem_of_mem_filter h)
    have hqlt : ∀ x ∈ selfDone t0 done, x < t0.getNextIndex := by
      intro x hx
      apply mem_bfs_lt_getNextIndex
      rw [hsplit]
      exact List.mem_append_left _ (List.mem_of_mem_filter hx)
    have hsplit2 : t0.breadthFirstTraversal = (done ++ [y]) ++ rest := by
      rw [hsplit, List.append_assoc]; rfl
    have hcond : t.qualifies y ↔ t0.qualifies y := by
      have hsubEq : (y ∈ t.subtreeRoots) ↔ (y ∈ t0.subtreeRoots) := by
        rw [hinv.rootsEq]
        constructor
        · intro h
          rcases List.mem_append.1 h with h | h
          · exact h
          · obtain ⟨j, hj, hyj⟩ := List.mem_map.1 h
            omega
        · exact fun h => List.mem_append_left _ h
      have hleafEqy : t.isLeaf y = t0.isLeaf y := by
        unfold isLeaf; rw [hinv.leafEq y hyN]
      unfold qualifies
      rw [hsubEq, hleafEqy, hinv.rootEq]
    by_cases hq : t0.qualifies y
    · -- qualifying: insert self node s = N + c above y, where c = |selfDone done|
      have hqt : t.qualifies y := hcond.2 hq
      obtain ⟨p, hp0⟩ := Option.isSome_iff_exists.1 (hP y hyL hq.2)
      have hpt : t.getParent y = some p := by
        rw [hinv.parOld y hyN hynq]; exact hp0
      have hpedge0 : (p, y) ∈ t0.edges := getParent_mem_edges t0 y p hp0
      have hpN : p < t0.getNextIndex := (hE0 _ hpedge0).1
      have hpmem0 : p ∈ t0.nodes := (hEN0 _ hpedge0).1
      have hsE : ∀ e ∈ t.edges,
          e.1 ≠ t0.getNextIndex + (selfDone t0 done).length ∧
          e.2 ≠ t0.getNextIndex + (selfDone t0 done).length := by
        intro e he
        have hb := hinv.edgeBound e he
        omega
      have hsN : t0.getNextIndex + (selfDone t0 done).length ∉ t.nodes := by
        rw [hinv.nodesEq]
        intro hmem
        rcases List.mem_append.1 hmem with h | h
        · have := hN0 _ h; omega
        · obtain ⟨j, hj, hyj⟩ := List.mem_map.1 h
          rw [List.mem_range] at hj
          omega
      have hpmem : p ∈ t.nodes := by
        rw [hinv.nodesEq]; exact List.mem_append_left _ hpmem0
      have hymem : y ∈ t.nodes := by
        rw [hinv.nodesEq]; exact List.mem_append_left _ hymem0
      obtain ⟨T1, hrun, hedges, hnodes, hroot, hsub, hnameo, hnames, hwps, hwsy,
          hwpy, hwother⟩ :=
        insertAbove_effect t y (t0.getNextIndex + (selfDone t0 done).length)
          (makeSelfName (t.getName y) sfx)
          (if p ≠ 0 then t.getWeight p y else none) p hpt hsE hsN hpmem hymem
          (by omega) (by omega)
      have hsd : selfDone t0 (done ++ [y]) = selfDone t0 done ++ [y] := by
        rw [selfDone_append]; simp [hq]
      have hlen1 : (selfDone t0 (done ++ [y])).length = (selfDone t0 done).length + 1 := by
        rw [hsd]; simp
      have hgname : t.getName y = t0.getName y := by
        unfold getName; rw [hinv.nameOld y hyN]
      -- the edge (p, y) also exists in the current tree
      have hpedge : (p, y) ∈ t.edges := getParent_mem_edges t y p hpt
      -- helper facts about getting elements of selfDone (done ++ [y])
      have hgetlt : ∀ j (hjc : j < (selfDone t0 done).length)
          (hj : j < (selfDone t0 (done ++ [y])).length),
          (selfDone t0 (done ++ [y])).get ⟨j, hj⟩ = (selfDone t0 done).get ⟨j, hjc⟩ := by
        intro j hjc hj
        have hb : j < (selfDone t0 done ++ [y]).length := by simp; omega
        rw [get_congr hsd hj hb, List.get_append _ hjc]
      have hgetlast : ∀ (hj : (selfDone t0 done).length < (selfDone t0 (done ++ [y])).length),
          (selfDone t0 (done ++ [y])).get ⟨(selfDone t0 done).length, hj⟩ = y := by
        intro hj
        have hb : (selfDone t0 done).length < (selfDone t0 done ++ [y]).length := by simp
        rw [get_congr hsd hj hb, get_append_length]
      have hxq_lt : ∀ j (hjc : j < (selfDone t0 done).length),
          (selfDone t0 done).get ⟨j, hjc⟩ < t0.getNextIndex :=
        fun j hjc => hqlt _ (List.get_mem _ _ _)
      have hxq_ne_y : ∀ j (hjc : j < (selfDone t0 done).length),
          (selfDone t0 done).get ⟨j, hjc⟩ ≠ y :=
        fun j hjc h => hynq (h ▸ List.get_mem _ _ _)
      -- the invariant for the extended prefix
      have hinv2 : SelfInv t0 sfx (done ++ [y])
          { T1 with subtreeRoots :=
              T1.subtreeRoots ++ [t0.getNextIndex + (selfDone t0 done).length] } := by
        refine ⟨?_, ?_, ?_, ?_, ?_, ?_, ?_, ?_, ?_, ?_, ?_, ?_, ?_, ?_, ?_⟩
        · show T1.rootId = t0.rootId
          rw [hroot, hinv.rootEq]
        · show T1.nodes = _
          rw [hnodes, hinv.nodesEq, hlen1, List.range_succ, List.map_append,
            List.append_assoc]
          simp
        · show T1.subtreeRoots ++ _ = _
          rw [hsub, hinv.rootsEq, hlen1, List.range_succ, List.map_append,
            List.append_assoc]
          simp
        · intro x hx
          show T1.name x = t0.name x
          rw [hnameo x (by omega), hinv.nameOld x hx]
        · intro j hj
          by_cases hjc : j < (selfDone t0 done).length
          · rw [hgetlt j hjc hj]
            show T1.name _ = _
            rw [hnameo _ (by omega), hinv.nameNew j hjc]
          · have hjc2 : j = (selfDone t0 done).length := by
              rw [hlen1] at hj; omega
            subst hjc2
            rw [hgetlast hj]
            show T1.name _ = _
            rw [hnames, hgname]
        · intro x hx hxq
          have hxq1 : x ∉ selfDone t0 done := by
            intro h; exact hxq (by rw [hsd]; exact List.mem_append_left _ h)
          have hxy : x ≠ y := by
            intro h; subst h
            exact hxq (by rw [hsd]; exact List.mem_append_right _ (List.mem_singleton_self _))
          show T1.getParent x = t0.getParent x
          rw [getParent_shape_other T1 t p y _ hedges x hxy (by omega)]
          exact hinv.parOld x hx hxq1
        · intro j hj
          by_cases hjc : j < (selfDone t0 done).length
          · rw [hgetlt j hjc hj]
            show T1.getParent _ = _
            rw [getParent_shape_other T1 t p y _ hedges _ (hxq_ne_y j hjc)
              (by have := hxq_lt j hjc; omega)]
            exact hinv.parNewDown j hjc
          · have hjc2 : j = (selfDone t0 done).length := by
              rw [hlen1] at hj; omega
            subst hjc2
            rw [hgetlast hj]
            show T1.getParent y = _
            rw [getParent_shape_y T1 t p y _ hedges hinv.tgtNodup hpt (by omega)]
        · intro j hj
          by_cases hjc : j < (selfDone t0 done).length
          · rw [hgetlt j hjc hj]
            show T1.getParent _ = _
            rw [getParent_shape_other T1 t p y _ hedges _ (by omega) (by omega)]
            exact hinv.parNewUp j hjc
          · have hjc2 : j = (selfDone t0 done).length := by
              rw [hlen1] at hj; omega
            subst hjc2
            rw [hgetlast hj]
            show T1.getParent _ = _
            rw [getParent_shape_s T1 t p y _ hedges (fun e he => (hsE e he).2), hp0]
        · show (T1.edges.map Prod.snd).Nodup
          rw [hedges, List.map_append]
          rw [List.nodup_append]
          refine ⟨hinv.tgtNodup.sublist ((List.filter_sublist _).map Prod.snd), ?_, ?_⟩
          · simp
            omega
          · intro a ha
            obtain ⟨e, he, rfl⟩ := List.mem_map.1 ha
            have hkeep := List.of_mem_filter he
            have hemem := List.mem_of_mem_filter he
            have hbound := hinv.edgeBound e hemem
            simp only [List.map_cons, List.map_nil]
            intro hcon
            rcases List.mem_cons.1 hcon with h | h
            · omega
            · rcases List.mem_cons.1 h with h | h
              · -- e.2 = y contradicts target uniqueness after removing (p, y)
                have heq : e = (p, y) :=
                  nodup_map_snd_inj hinv.tgtNodup e hemem (p, y) hpedge h
                rw [heq] at hkeep
                simp at hkeep
              · exact absurd h (List.not_mem_nil _)
        · intro e he
          rw [hedges] at he
          rw [hlen1]
          rcases List.mem_append.1 he with h | h
          · have := hinv.edgeBound e (List.mem_of_mem_filter h)
            omega
          · rcases List.mem_cons.1 h with rfl | h
            · simp
              omega
            · rcases List.mem_cons.1 h with rfl | h
              · simp
                omega
              · exact absurd h (List.not_mem_nil _)
        · intro e he
          rw [hedges] at he
          show e.1 ∈ T1.nodes ∧ e.2 ∈ T1.nodes
          rw [hnodes]
          rcases List.mem_append.1 he with h | h
          · have := hinv.edgeMem e (List.mem_of_mem_filter h)
            exact ⟨List.mem_append_left _ this.1, List.mem_append_left _ this.2⟩
          · rcases List.mem_cons.1 h with rfl | h
            · exact ⟨List.mem_append_left _ hpmem,
                List.mem_append_right _ (List.mem_singleton_self _)⟩
            · rcases List.mem_cons.1 h with rfl | h
              · exact ⟨List.mem_append_right _ (List.mem_singleton_self _),
                  List.mem_append_left _ hymem⟩
              · exact absurd h (List.not_mem_nil _)
        · intro x hx
          show (T1.getChildren x).isEmpty = _
          by_cases hxp : x = p
          · subst hxp
            have h1 : T1.getChildren x ≠ [] := getChildren_shape_p_ne_nil T1 t x y _ hedges
            have h2 : t.getChildren x ≠ [] := by
              intro hc
              have := mem_getChildren_of_edge t x y hpedge
              rw [hc] at this
              exact absurd this (List.not_mem_nil _)
            have h3 := hinv.leafEq x hx
            rcases hc1 : T1.getChildren x with _ | ⟨a1, l1⟩
            · exact absurd hc1 h1
            · rcases hc2 : t.getChildren x with _ | ⟨a2, l2⟩
              · exact absurd hc2 h2
              · rw [hc2] at h3
                rw [← h3]
                rfl
          · rw [getChildren_shape_other T1 t p y _ hedges x hxp (by omega)]
            exact hinv.leafEq x hx
        · intro a b ha hb hbq
          have hbq1 : b ∉ selfDone t0 done := by
            intro h; exact hbq (by rw [hsd]; exact List.mem_append_left _ h)
          have hby : b ≠ y := by
            intro h; subst h
            exact hbq (by rw [hsd]; exact List.mem_append_right _ (List.mem_singleton_self _))
          show T1.getWeight a b = t0.getWeight a b
          rw [hwother a b (fun h => hby h.2) (by omega) (by omega)]
          exact hinv.wOld a b ha hb hbq1
        · intro j hj pj hpj
          by_cases hjc : j < (selfDone t0 done).length
          · rw [hgetlt j hjc hj] at hpj ⊢
            have hpjN : pj < t0.getNextIndex :=
              (hE0 _ (getParent_mem_edges t0 _ pj hpj)).1
            show T1.getWeight pj (t0.getNextIndex + j) = _
            rw [hwother pj _ (by omega) (by omega) (by omega)]
            exact hinv.wNewUp j hjc pj hpj
          · have hjc2 : j = (selfDone t0 done).length := by
              rw [hlen1] at hj; omega
            subst hjc2
            rw [hgetlast hj] at hpj ⊢
            have hpjp : pj = p := by
              rw [hp0] at hpj
              exact (Option.some.inj hpj).symm
            subst hpjp
            show T1.getWeight pj _ = _
            rw [hwps]
            exact hinv.wOld pj y hpN hyN hynq
        · intro j hj pj hpj
          by_cases hjc : j < (selfDone t0 done).length
          · rw [hgetlt j hjc hj] at hpj ⊢
            show T1.getWeight (t0.getNextIndex + j) _ = _
            rw [hwother _ _ (by omega) (by omega) (by omega)]
            exact hinv.wNewDown j hjc pj hpj
          · have hjc2 : j = (selfDone t0 done).length := by
              rw [hlen1] at hj; omega
            subst hjc2
            rw [hgetlast hj] at hpj ⊢
            have hpjp : pj = p := by
              rw [hp0] at hpj
              exact (Option.some.inj hpj).symm
            subst hpjp
            show T1.getWeight _ y = _
            rw [hwsy, hinv.wOld pj y hpN hyN hynq]
      obtain ⟨T, hT1, hT2⟩ := ih (done ++ [y]) _ hsplit2 hinv2
      refine ⟨T, ?_, ?_⟩
      · simp only [addSelfEdgesAux, if_pos hqt, hpt, hrun]
        rw [hlen1] at hT1
        exact hT1
      · have hassoc : (done ++ [y]) ++ rest = done ++ y :: rest := by
          rw [List.append_assoc]; rfl
        rw [← hassoc]
        exact hT2
    · have hnq : ¬ t.qualifies y := fun h => hq (hcond.1 h)
      have hsd : selfDone t0 (done ++ [y]) = selfDone t0 done := by
        rw [selfDone_append]; simp [hq]
      have hinv2 : SelfInv t0 sfx (done ++ [y]) t :=
        selfInv_of_selfDone_eq t0 sfx done (done ++ [y]) t hsd.symm hinv
      obtain ⟨T, hT1, hT2⟩ := ih (done ++ [y]) t hsplit2 hinv2
      refine ⟨T, ?_, ?_⟩
      · simp only [addSelfEdgesAux, if_neg hnq]
        rw [← hsd]
        exact hT1
      · have hassoc : (done ++ [y]) ++ rest = done ++ y :: rest := by
          rw [List.append_assoc]; rfl
        rw [← hassoc]
        exact hT2

end AddSelfEdgesInduction

section AddSelfEdgesTop

open MCTree

/-- Top-level effect of `addSelfEdges`: starting from the untouched
tree, folding the loop body over the whole snapshotted traversal
succeeds and establishes the invariant for the full traversal. -/
theorem addSelfEdges_spec (t0 : MCTree) (sfx : String)
    (hE0 : ∀ e ∈ t0.edges, e.1 < t0.getNextIndex ∧ e.2 < t0.getNextIndex)
    (hN0 : ∀ x ∈ t0.nodes, x < t0.getNextIndex)
    (hEN0 : ∀ e ∈ t0.edges, e.1 ∈ t0.nodes ∧ e.2 ∈ t0.nodes)
    (hRmem : t0.rootId ∈ t0.nodes)
    (hLnd : t0.breadthFirstTraversal.Nodup)
    (hTnd : (t0.edges.map Prod.snd).Nodup)
    (hP : ∀ x ∈ t0.breadthFirstTraversal, x ≠ t0.rootId → (t0.getParent x).isSome) :
    ∃ T, t0.addSelfEdges sfx = .ok T ∧
      SelfInv t0 sfx t0.breadthFirstTraversal T := by
  obtain ⟨T, h1, h2⟩ :=
    addSelfEdgesAux_spec t0 sfx hE0 hN0 hEN0 hRmem hLnd hP
      t0.breadthFirstTraversal [] t0 (by simp)
      (selfInv_init t0 sfx hE0 hEN0 hTnd)
  refine ⟨T, ?_, by simpa using h2⟩
  unfold addSelfEdges
  rw [← h1]
  rfl

end AddSelfEdgesTop

section C6C10Theorems

open MCTree

/-- C6: on a well-formed partitioned tree, `addSelfEdges(sfx)` inserts
exactly one fresh node directly above each traversal node that is a
leaf or subtree-root and not the global root (the `j`-th such node, in
breadth-first order, receives the fresh id `getNextIndex + j`): the
fresh node becomes the node's parent, takes the node's old parent, is
added to the subtree-root set, and is named by inserting the suffix
before the first dot of the node's name (`"human.chr1"`/"_self" gives
`"human_self.chr1"`).  No other traversal node's parent changes, and
the node set grows by exactly one node per qualifying member. -/
theorem addSelfEdges_shape (t0 : MCTree) (sfx : String)
    (hE0 : ∀ e ∈ t0.edges, e.1 < t0.getNextIndex ∧ e.2 < t0.getNextIndex)
    (hN0 : ∀ x ∈ t0.nodes, x < t0.getNextIndex)
    (hEN0 : ∀ e ∈ t0.edges, e.1 ∈ t0.nodes ∧ e.2 ∈ t0.nodes)
    (hRmem : t0.rootId ∈ t0.nodes)
    (hLnd : t0.breadthFirstTraversal.Nodup)
    (hTnd : (t0.edges.map Prod.snd).Nodup)
    (hP : ∀ x ∈ t0.breadthFirstTraversal, x ≠ t0.rootId → (t0.getParent x).isSome) :
    ∃ T, t0.addSelfEdges sfx = .ok T ∧
      (∀ j (hj : j < (selfDone t0 t0.breadthFirstTraversal).length),
        T.name (t0.getNextIndex + j) =
          some (makeSelfName
            (t0.getName ((selfDone t0 t0.breadthFirstTraversal).get ⟨j, hj⟩)) sfx) ∧
        T.getParent ((selfDone t0 t0.breadthFirstTraversal).get ⟨j, hj⟩) =
          some (t0.getNextIndex + j) ∧
        T.getParent (t0.getNextIndex + j) =
          t0.getParent ((selfDone t0 t0.breadthFirstTraversal).get ⟨j, hj⟩) ∧
        (t0.getNextIndex + j) ∈ T.subtreeRoots ∧
        (t0.getNextIndex + j) ∉ t0.nodes) ∧
      (∀ x ∈ t0.breadthFirstTraversal, ¬ t0.qualifies x →
        T.getParent x = t0.getParent x) ∧
      T.nodes = t0.nodes ++
        (List.range (selfDone t0 t0.breadthFirstTraversal).length).map
          (t0.getNextIndex + ·) ∧
      (∀ x ∈ t0.breadthFirstTraversal,
        (t0.qualifies x ↔ x ∈ selfDone t0 t0.breadthFirstTraversal)) ∧
      makeSelfName "human.chr1" "_self" = "human_self.chr1" := by
  obtain ⟨T, hok, hinv⟩ := addSelfEdges_spec t0 sfx hE0 hN0 hEN0 hRmem hLnd hTnd hP
  refine ⟨T, hok, ?_, ?_, hinv.nodesEq, ?_, by decide⟩
  · intro j hj
    refine ⟨hinv.nameNew j hj, hinv.parNewDown j hj, hinv.parNewUp j hj, ?_, ?_⟩
    · rw [hinv.rootsEq]
      refine List.mem_append_right _ ?_
      exact List.mem_map.2 ⟨j, List.mem_range.2 hj, rfl⟩
    · intro hmem
      have := hN0 _ hmem
      omega
  · intro x hx hnq
    refine hinv.parOld x (mem_bfs_lt_getNextIndex t0 x hx) ?_
    intro hmem
    have := List.of_mem_filter hmem
    simp at this
    exact hnq this
  · intro x hx
    constructor
    · intro hq
      exact List.mem_filter.2 ⟨hx, by simpa using hq⟩
    · intro hmem
      have := List.of_mem_filter hmem
      simpa using this

/-- C10 counterexample: on `treeC10` the leaf 1 had parent edge weight 3;
after `addSelfEdges` the upper edge `0 → 2` carries weight 3, but the
lower edge `2 → 1` carries no weight, because the parent's node id 0
is falsy in Python (`if parent:`) so the loop passes `None` as the new
weight.  The claim that both edges carry the old weight is false. -/
theorem addSelfEdges_weight_counterexample :
    treeC10.getWeight 0 1 = some 3 ∧
    (exceptOk (treeC10.addSelfEdges "_self")).map
      (fun T => (T.getParent 1, T.getWeight 0 2, T.getWeight 2 1)) =
      some (some 2, some 3, none) := by
  decide

/-- C10 amended: after `addSelfEdges`, for the `j`-th qualifying node
`x` with old parent `p` and old parent-edge weight `w`, the upper edge
`p → (getNextIndex + j)` always carries `w`; the lower edge
`(getNextIndex + j) → x` carries `w` exactly when `p`'s id is nonzero
(Python truthiness of `if parent:`), and is left unset when `p = 0`. -/
theorem addSelfEdges_weights (t0 : MCTree) (sfx : String)
    (hE0 : ∀ e ∈ t0.edges, e.1 < t0.getNextIndex ∧ e.2 < t0.getNextIndex)
    (hN0 : ∀ x ∈ t0.nodes, x < t0.getNextIndex)
    (hEN0 : ∀ e ∈ t0.edges, e.1 ∈ t0.nodes ∧ e.2 ∈ t0.nodes)
    (hRmem : t0.rootId ∈ t0.nodes)
    (hLnd : t0.breadthFirstTraversal.Nodup)
    (hTnd : (t0.edges.map Prod.snd).Nodup)
    (hP : ∀ x ∈ t0.breadthFirstTraversal, x ≠ t0.rootId → (t0.getParent x).isSome) :
    ∃ T, t0.addSelfEdges sfx = .ok T ∧
      ∀ j (hj : j < (selfDone t0 t0.breadthFirstTraversal).length), ∀ p,
        t0.getParent ((selfDone t0 t0.breadthFirstTraversal).get ⟨j, hj⟩) = some p →
        T.getWeight p (t0.getNextIndex + j) =
          t0.getWeight p ((selfDone t0 t0.breadthFirstTraversal).get ⟨j, hj⟩) ∧
        T.getWeight (t0.getNextIndex + j)
            ((selfDone t0 t0.breadthFirstTraversal).get ⟨j, hj⟩) =
          (if p ≠ 0 then
            t0.getWeight p ((selfDone t0 t0.breadthFirstTraversal).get ⟨j, hj⟩)
          else none) := by
  obtain ⟨T, hok, hinv⟩ := addSelfEdges_spec t0 sfx hE0 hN0 hEN0 hRmem hLnd hTnd hP
  exact ⟨T, hok, fun j hj p hp => ⟨hinv.wNewUp j hj p hp, hinv.wNewDown j hj p hp⟩⟩

end C6C10Theorems

section C6C10Witnesses

open MCTree

/-- Witness for C6 at `treeC6` with suffix "_self". -/
theorem addSelfEdges_shape_witness :
    ∃ T, treeC6.addSelfEdges "_self" = .ok T ∧
      (∀ j (hj : j < (selfDone treeC6 treeC6.breadthFirstTraversal).length),
        T.name (treeC6.getNextIndex + j) =
          some (makeSelfName
            (treeC6.getName
              ((selfDone treeC6 treeC6.breadthFirstTraversal).get ⟨j, hj⟩)) "_self") ∧
        T.getParent ((selfDone treeC6 treeC6.breadthFirstTraversal).get ⟨j, hj⟩) =
          some (treeC6.getNextIndex + j) ∧
        T.getParent (treeC6.getNextIndex + j) =
          treeC6.getParent ((selfDone treeC6 treeC6.breadthFirstTraversal).get ⟨j, hj⟩) ∧
        (treeC6.getNextIndex + j) ∈ T.subtreeRoots ∧
        (treeC6.getNextIndex + j) ∉ treeC6.nodes) ∧
      (∀ x ∈ treeC6.breadthFirstTraversal, ¬ treeC6.qualifies x →
        T.getParent x = treeC6.getParent x) ∧
      T.nodes = treeC6.nodes ++
        (List.range (selfDone treeC6 treeC6.breadthFirstTraversal).length).map
          (treeC6.getNextIndex + ·) ∧
      (∀ x ∈ treeC6.breadthFirstTraversal,
        (treeC6.qualifies x ↔ x ∈ selfDone treeC6 treeC6.breadthFirstTraversal)) ∧
      makeSelfName "human.chr1" "_self" = "human_self.chr1" :=
  addSelfEdges_shape treeC6 "_self" (by decide) (by decide) (by decide) (by decide)
    (by decide) (by decide) (by decide)

/-- Witness for the amended C10 at `treeC6` with suffix "_self". -/
theorem addSelfEdges_weights_witness :
    ∃ T, treeC6.addSelfEdges "_self" = .ok T ∧
      ∀ j (hj : j < (selfDone treeC6 treeC6.breadthFirstTraversal).length), ∀ p,
        treeC6.getParent
            ((selfDone treeC6 treeC6.breadthFirstTraversal).get ⟨j, hj⟩) = some p →
        T.getWeight p (treeC6.getNextIndex + j) =
          treeC6.getWeight p
            ((selfDone treeC6 treeC6.breadthFirstTraversal).get ⟨j, hj⟩) ∧
        T.getWeight (treeC6.getNextIndex + j)
            ((selfDone treeC6 treeC6.breadthFirstTraversal).get ⟨j, hj⟩) =
          (if p ≠ 0 then
            treeC6.getWeight p
              ((selfDone treeC6 treeC6.breadthFirstTraversal).get ⟨j, hj⟩)
          else none) :=
  addSelfEdges_weights treeC6 "_self" (by decide) (by decide) (by decide) (by decide)
    (by decide) (by decide) (by decide)

end C6C10Witnesses

section NameUnlabeledLemmas

open MCTree

theorem regName_name (t : MCTree) (node : Nat) : (regName t node).name = t.name := rfl

theorem regName_edges (t : MCTree) (node : Nat) : (regName t node).edges = t.edges := rfl

theorem setName_edges (t : MCTree) (node : Nat) (s : String) :
    (t.setName node s).edges = t.edges := rfl

/-- The naming pass touches only `name` and `nameToId`. -/
theorem nameUnlabeledAux_structure (pfx : String) :
    ∀ l t c, (nameUnlabeledAux pfx l t c).edges = t.edges ∧
      (nameUnlabeledAux pfx l t c).nodes = t.nodes ∧
      (nameUnlabeledAux pfx l t c).rootId = t.rootId ∧
      (nameUnlabeledAux pfx l t c).subtreeRoots = t.subtreeRoots ∧
      (nameUnlabeledAux pfx l t c).weight = t.weight ∧
      (nameUnlabeledAux pfx l t c).subtreeSize = t.subtreeSize := by
  intro l
  induction l with
  | nil => intro t c; exact ⟨rfl, rfl, rfl, rfl, rfl, rfl⟩
  | cons node rest ih =>
    intro t c
    simp only [nameUnlabeledAux]
    by_cases h : ¬t.isLeaf node ∧ ¬t.hasName node
    · rw [if_pos h]
      exact ih _ _
    · rw [if_neg h]
      exact ih _ _

/-- A node that is already named, or is a leaf, never has its name
changed by the naming pass. -/
theorem nameUnlabeledAux_name_old (pfx : String) :
    ∀ l t c x, (t.hasName x ∨ t.isLeaf x) →
      (nameUnlabeledAux pfx l t c).name x = t.name x := by
  intro l
  induction l with
  | nil => intro t c x _; rfl
  | cons node rest ih =>
    intro t c x hx
    simp only [nameUnlabeledAux]
    by_cases h : ¬t.isLeaf node ∧ ¬t.hasName node
    · rw [if_pos h]
      have hxnode : x ≠ node := by
        intro heq
        subst heq
        rcases hx with hx | hx
        · exact h.2 hx
        · exact h.1 hx
      rw [ih (regName (t.setName node (pfx ++ toString c)) node) (c + 1) x ?side]
      case side =>
        rcases hx with hx | hx
        · left
          show ((regName (t.setName node (pfx ++ toString c)) node).name x).isSome
          rw [regName_name]
          unfold hasName at hx
          simpa [setName, hxnode] using hx
        · exact Or.inr hx
      rw [regName_name]
      simp [setName, hxnode]
    · rw [if_neg h]
      rw [ih (regName t node) c x hx]
      rfl

/-- Once named, a node stays named through the rest of the pass. -/
theorem nameUnlabeledAux_hasName_mono (pfx : String) (l : List Nat) (t : MCTree)
    (c x : Nat) (hx : t.hasName x) :
    (nameUnlabeledAux pfx l t c).hasName x := by
  unfold hasName
  rw [nameUnlabeledAux_name_old pfx l t c x (Or.inl hx)]
  exact hx

/-- After the pass, every internal node of the processed list is
named. -/
theorem nameUnlabeledAux_names_all (pfx : String) :
    ∀ l t c x, x ∈ l → ¬t.isLeaf x → (nameUnlabeledAux pfx l t c).hasName x := by
  intro l
  induction l with
  | nil => intro t c x hx; cases hx
  | cons node rest ih =>
    intro t c x hx hleaf
    simp only [nameUnlabeledAux]
    by_cases h : ¬t.isLeaf node ∧ ¬t.hasName node
    · rw [if_pos h]
      rcases List.mem_cons.1 hx with rfl | hx
      · apply nameUnlabeledAux_hasName_mono
        show ((regName (t.setName x (pfx ++ toString c)) x).name x).isSome
        rw [regName_name]
        simp [setName]
      · exact ih _ _ x hx hleaf
    · rw [if_neg h]
      rcases List.mem_cons.1 hx with rfl | hx
      · rcases Decidable.not_and_iff_or_not.1 h with h1 | h1
        · exact absurd (Decidable.not_not.1 h1) hleaf
        · exact nameUnlabeledAux_hasName_mono pfx rest (regName t x) c x
            (Decidable.not_not.1 h1)
      · exact ih _ _ x hx hleaf

/-- If every internal node of the list is already named, the pass
changes no name at all. -/
theorem nameUnlabeledAux_no_assign (pfx : String) :
    ∀ l t c, (∀ x ∈ l, ¬t.isLeaf x → t.hasName x) →
      (nameUnlabeledAux pfx l t c).name = t.name := by
  intro l
  induction l with
  | nil => intro t c _; rfl
  | cons node rest ih =>
    intro t c hall
    simp only [nameUnlabeledAux]
    have h : ¬(¬t.isLeaf node ∧ ¬t.hasName node) := by
      intro hcon
      exact hcon.2 (hall node (List.mem_cons_self _ _) hcon.1)
    rw [if_neg h]
    rw [ih (regName t node) c (fun x hx hl => hall x (List.mem_cons_of_mem _ hx) hl)]
    rfl

end NameUnlabeledLemmas

section NameUnlabeledMain

open MCTree

theorem countP_congr_mem {l : List Nat} {p q : Nat → Bool}
    (h : ∀ a ∈ l, p a = q a) : l.countP p = l.countP q := by
  induction l with
  | nil => rfl
  | cons a tl ih =>
    rw [List.countP_cons, List.countP_cons, h a (List.mem_cons_self _ _),
      ih (fun b hb => h b (List.mem_cons_of_mem _ hb))]

/-- The assigned name of an unnamed internal node: prefix plus the
start index plus the number of unnamed internal nodes appearing
strictly before it in the processed list. -/
theorem nameUnlabeledAux_assign (pfx : String) :
    ∀ l t c x, l.Nodup → x ∈ l → ¬t.isLeaf x → ¬t.hasName x →
      (nameUnlabeledAux pfx l t c).name x =
        some (pfx ++ toString (c + (l.takeWhile (fun n => !(n == x))).countP
          (fun n => !(t.isLeaf n) && !(t.hasName n)))) := by
  intro l
  induction l with
  | nil => intro t c x _ hx; cases hx
  | cons node rest ih =>
    intro t c x hnd hx hleaf hname
    have hndrest : rest.Nodup := (List.nodup_cons.1 hnd).2
    have hnodenotin : node ∉ rest := (List.nodup_cons.1 hnd).1
    simp only [nameUnlabeledAux]
    by_cases hxn : x = node
    · subst hxn
      have hcondx : ¬t.isLeaf x ∧ ¬t.hasName x := ⟨hleaf, hname⟩
      rw [if_pos hcondx]
      have htw : (x :: rest).takeWhile (fun n => !(n == x)) = [] := by
        rw [List.takeWhile_cons_of_neg]
        simp
      rw [htw]
      rw [nameUnlabeledAux_name_old pfx rest _ (c + 1) x (Or.inl ?hn)]
      case hn =>
        show ((regName (t.setName x (pfx ++ toString c)) x).name x).isSome
        rw [regName_name]
        simp [setName]
      show (t.setName x (pfx ++ toString c)).name x = _
      simp [setName]
    · have hxrest : x ∈ rest := by
        rcases List.mem_cons.1 hx with h | h
        · exact absurd h hxn
        · exact h
      have htw : (node :: rest).takeWhile (fun n => !(n == x)) =
          node :: rest.takeWhile (fun n => !(n == x)) := by
        rw [List.takeWhile_cons_of_pos]
        simp
        exact fun h => hxn h.symm
      rw [htw, List.countP_cons]
      by_cases h : ¬t.isLeaf node ∧ ¬t.hasName node
      · rw [if_pos h]
        have hleaf2 : ¬(regName (t.setName node (pfx ++ toString c)) node).isLeaf x :=
          hleaf
        have hnx : (regName (t.setName node (pfx ++ toString c)) node).hasName x =
            t.hasName x := by
          show ((t.setName node (pfx ++ toString c)).name x).isSome = (t.name x).isSome
          rw [show (t.setName node (pfx ++ toString c)).name x = t.name x from by
            simp [setName, hxn]]
        have hname2 : ¬(regName (t.setName node (pfx ++ toString c)) node).hasName x := by
          rw [hnx]; exact hname
        rw [ih _ (c + 1) x hndrest hxrest hleaf2 hname2]
        have hcnt : (rest.takeWhile (fun n => !(n == x))).countP
            (fun n => !((regName (t.setName node (pfx ++ toString c)) node).isLeaf n) &&
              !((regName (t.setName node (pfx ++ toString c)) node).hasName n)) =
            (rest.takeWhile (fun n => !(n == x))).countP
              (fun n => !(t.isLeaf n) && !(t.hasName n)) := by
          apply countP_congr_mem
          intro a ha
          have hamem : a ∈ rest := (List.takeWhile_sublist _).mem ha
          have hanode : a ≠ node := fun hcon => hnodenotin (hcon ▸ hamem)
          have h1 : (regName (t.setName node (pfx ++ toString c)) node).isLeaf a =
              t.isLeaf a := rfl
          have h2 : (regName (t.setName node (pfx ++ toString c)) node).hasName a =
              t.hasName a := by
            show ((t.setName node (pfx ++ toString c)).name a).isSome = _
            simp [setName, hanode]
            rfl
          rw [h1, h2]
        rw [hcnt]
        have hpn : (!(t.isLeaf node) && !(t.hasName node)) = true := by
          simp only [Bool.and_eq_true, Bool.not_eq_true]
          exact ⟨by simpa using h.1, by simpa using h.2⟩
        refine congrArg some (congrArg (fun z => pfx ++ z) (congrArg toString ?_))
        rw [hpn]
        simp
        omega
      · rw [if_neg h]
        have hleaf2 : ¬(regName t node).isLeaf x := hleaf
        have hname2 : ¬(regName t node).hasName x := hname
        rw [ih _ c x hndrest hxrest hleaf2 hname2]
        have hpred : (fun n => !((regName t node).isLeaf n) &&
            !((regName t node).hasName n)) = (fun n => !(t.isLeaf n) && !(t.hasName n)) :=
          rfl
        rw [hpred]
        have hpn : (!(t.isLeaf node) && !(t.hasName node)) = false := by
          rcases Decidable.not_and_iff_or_not.1 h with h1 | h1
          · have := Decidable.not_not.1 h1
            simp [this]
          · have := Decidable.not_not.1 h1
            simp [this]
        refine congrArg some (congrArg (fun z => pfx ++ z) (congrArg toString ?_))
        rw [hpn]
        simp

end NameUnlabeledMain

section C8Theorem

open MCTree

/-- Breadth-first traversal only depends on the edge list, the root id
and the node count. -/
theorem bfs_congr (t1 t2 : MCTree) (he : t1.edges = t2.edges)
    (hr : t1.rootId = t2.rootId) (hn : t1.nodes.length = t2.nodes.length) :
    t1.breadthFirstTraversal = t2.breadthFirstTraversal := by
  have hch : ∀ n, t1.getChildren n = t2.getChildren n := by
    intro n
    unfold getChildren
    rw [he]
  have key : ∀ fuel queue, bfsAux t1 fuel queue = bfsAux t2 fuel queue := by
    intro fuel
    induction fuel with
    | zero => intro queue; cases queue <;> rfl
    | succ fuel ih =>
      intro queue
      match queue with
      | [] => rfl
      | n :: rest =>
        simp only [bfsAux]
        rw [hch n, ih]
  unfold breadthFirstTraversal
  rw [hn, hr, key]

/-- C8: `nameUnlabeledInternalNodes(prefix, startIdx)` never renames an
already-named node and never names a leaf; it assigns names exactly to
the unnamed internal nodes of the traversal, the node with `k` unnamed
internal nodes strictly before it (breadth-first order) receiving
`prefix ++ toString (startIdx + k)` — the counter starts at `startIdx`
and increments once per assignment; consequently a second call with the
same arguments changes no node's name. -/
theorem nameUnlabeled_spec (t : MCTree) (pfx : String) (i : Nat)
    (hLnd : t.breadthFirstTraversal.Nodup) :
    (∀ x, t.hasName x → (t.nameUnlabeledInternalNodes pfx i).name x = t.name x) ∧
    (∀ x, t.isLeaf x → (t.nameUnlabeledInternalNodes pfx i).name x = t.name x) ∧
    (∀ x ∈ t.breadthFirstTraversal, ¬t.isLeaf x → ¬t.hasName x →
      (t.nameUnlabeledInternalNodes pfx i).name x =
        some (pfx ++ toString (i + (t.breadthFirstTraversal.takeWhile
          (fun n => !(n == x))).countP (fun n => !(t.isLeaf n) && !(t.hasName n))))) ∧
    ((t.nameUnlabeledInternalNodes pfx i).nameUnlabeledInternalNodes pfx i).name =
      (t.nameUnlabeledInternalNodes pfx i).name := by
  refine ⟨?_, ?_, ?_, ?_⟩
  · intro x hx
    exact nameUnlabeledAux_name_old pfx _ t i x (Or.inl hx)
  · intro x hx
    exact nameUnlabeledAux_name_old pfx _ t i x (Or.inr hx)
  · intro x hx hl hn
    exact nameUnlabeledAux_assign pfx _ t i x hLnd hx hl hn
  · have hstruct := nameUnlabeledAux_structure pfx t.breadthFirstTraversal t i
    have hbfs : (nameUnlabeledAux pfx t.breadthFirstTraversal t i).breadthFirstTraversal =
        t.breadthFirstTraversal := by
      apply bfs_congr
      · exact hstruct.1
      · exact hstruct.2.2.1
      · rw [hstruct.2.1]
    unfold nameUnlabeledInternalNodes
    rw [hbfs]
    apply nameUnlabeledAux_no_assign
    intro x hx hleaf
    have hleaft : ¬t.isLeaf x := by
      intro hcon
      apply hleaf
      show ((nameUnlabeledAux pfx t.breadthFirstTraversal t i).getChildren x).isEmpty
      unfold getChildren
      rw [hstruct.1]
      exact hcon
    exact nameUnlabeledAux_names_all pfx _ t i x hx hleaft

/-- Witness for C8 at `treeC8` with prefix "Anc" and start index 5. -/
theorem nameUnlabeled_spec_witness :
    (∀ x, treeC8.hasName x → (treeC8.nameUnlabeledInternalNodes "Anc" 5).name x =
      treeC8.name x) ∧
    (∀ x, treeC8.isLeaf x → (treeC8.nameUnlabeledInternalNodes "Anc" 5).name x =
      treeC8.name x) ∧
    (∀ x ∈ treeC8.breadthFirstTraversal, ¬treeC8.isLeaf x → ¬treeC8.hasName x →
      (treeC8.nameUnlabeledInternalNodes "Anc" 5).name x =
        some ("Anc" ++ toString (5 + (treeC8.breadthFirstTraversal.takeWhile
          (fun n => !(n == x))).countP
          (fun n => !(treeC8.isLeaf n) && !(treeC8.hasName n))))) ∧
    ((treeC8.nameUnlabeledInternalNodes "Anc" 5).nameUnlabeledInternalNodes "Anc" 5).name =
      (treeC8.nameUnlabeledInternalNodes "Anc" 5).name :=
  nameUnlabeled_spec treeC8 "Anc" 5 (by decide)

end C8Theorem

section C4Theorem

open ProgressiveDriver

/-- C4 evidence: under the code's target expansion,
`ProgressiveNext("A").run` adds both `ProgressiveUp("A")` (the event's
own work) and `ProgressiveDown("B")` (the follow-on event's processing)
as sibling child targets, and the happens-before relation generated by
the executor's guarantees orders neither `up A` before `up B` nor
`up B` before `up A` — the two works may run concurrently, contradicting
the claim that `followOn(e)` is dispatched only after `e`'s work
completes.  (Sanity check: the dispatch order `down A` before `up B`
does hold.) -/
theorem progressiveNext_followOn_concurrent :
    (Tgt.next "A", Tgt.up "A") ∈ pairsAB ∧
    (Tgt.next "A", Tgt.down "B") ∈ pairsAB ∧
    ¬ hb pairsAB 32 (.up "A") (.up "B") ∧
    ¬ hb pairsAB 32 (.up "B") (.up "A") ∧
    hb pairsAB 32 (.down "A") (.up "B") := by
  decide

end C4Theorem

section TraverseLemmas

open MCTree

theorem edge_of_mem_getChildren (t : MCTree) (a b : Nat) (h : b ∈ t.getChildren a) :
    (a, b) ∈ t.edges := by
  unfold getChildren at h
  obtain ⟨e, he, heq⟩ := List.mem_map.1 h
  have h1 : e.1 = a := by simpa using (List.of_mem_filter he)
  have he2 : e ∈ t.edges := List.mem_of_mem_filter he
  have : e = (a, b) := by
    cases e
    simp_all
  rw [← this]
  exact he2

/-- Soundness: every member of the traversal list is reached by a
boundary-respecting path from the start node. -/
theorem traverse_sound (t : MCTree) :
    ∀ fuel root node x, x ∈ t.traverseSubtree fuel root node →
      ∃ n, BoundaryPath t root n node x := by
  intro fuel
  induction fuel with
  | zero => intro root node x hx; cases hx
  | succ fuel ih =>
    intro root node x hx
    simp only [traverseSubtree] at hx
    rcases List.mem_cons.1 hx with rfl | hx
    · exact ⟨0, BoundaryPath.base x⟩
    · by_cases hcond : node = root ∨ node ∉ t.subtreeRoots
      · rw [if_pos hcond] at hx
        obtain ⟨c, hc, hxc⟩ := List.mem_flatMap.1 hx
        obtain ⟨n, hpath⟩ := ih root c x hxc
        exact ⟨n + 1, BoundaryPath.step hcond hc hpath⟩
      · rw [if_neg hcond] at hx
        cases hx

/-- Completeness: with enough fuel, every boundary-respecting path
endpoint is in the traversal list. -/
theorem traverse_complete (t : MCTree) :
    ∀ n x y root fuel, BoundaryPath t root n x y → n < fuel →
      y ∈ t.traverseSubtree fuel root x := by
  intro n x y root fuel hpath
  induction hpath generalizing fuel with
  | base x =>
    intro hf
    match fuel, hf with
    | f + 1, _ =>
      simp [traverseSubtree]
  | step hcond hc _ ih =>
    intro hf
    match fuel, Nat.lt_of_succ_lt hf with
    | f + 1, _ =>
      simp only [traverseSubtree, if_pos hcond]
      refine List.mem_cons_of_mem _ (List.mem_flatMap.2 ⟨_, hc, ?_⟩)
      exact ih f (by omega)

/-- Members of boundary paths are graph nodes. -/
theorem boundaryPath_mem_nodes (t : MCTree)
    (hEN : ∀ e ∈ t.edges, e.1 ∈ t.nodes ∧ e.2 ∈ t.nodes) :
    ∀ n x y, BoundaryPath t root n x y → x ∈ t.nodes → y ∈ t.nodes := by
  intro n x y hpath
  induction hpath with
  | base x => exact id
  | step hcond hc _ ih =>
    intro _
    exact ih (hEN _ (edge_of_mem_getChildren t _ _ hc)).2

/-- Back decomposition of a nonempty boundary path: it ends with an
edge out of an expandable boundary node. -/
theorem boundaryPath_snoc (t : MCTree) :
    ∀ n x y, BoundaryPath t root (n + 1) x y →
      ∃ z, BoundaryPath t root n x z ∧ (z = root ∨ z ∉ t.subtreeRoots) ∧
        y ∈ t.getChildren z := by
  intro n
  induction n with
  | zero =>
    intro x y hpath
    cases hpath with
    | step hcond hc htail =>
      cases htail
      exact ⟨x, BoundaryPath.base x, hcond, hc⟩
  | succ n ih =>
    intro x y hpath
    cases hpath with
    | step hcond hc htail =>
      obtain ⟨z, hz1, hz2, hz3⟩ := ih _ _ htail
      exact ⟨z, BoundaryPath.step hcond hc hz1, hz2, hz3⟩

/-- Every step of a path moves strictly later in the breadth-first
order of the host tree (parents are visited before children). -/
theorem boundaryPath_idx (t : MCTree)
    (hord : ∀ e ∈ t.edges, t.breadthFirstTraversal.indexOf e.1 <
      t.breadthFirstTraversal.indexOf e.2) :
    ∀ n x y, BoundaryPath t root n x y →
      t.breadthFirstTraversal.indexOf x + n ≤ t.breadthFirstTraversal.indexOf y := by
  intro n x y hpath
  induction hpath with
  | base x => omega
  | step hcond hc _ ih =>
    have hstep := hord _ (edge_of_mem_getChildren t _ _ hc)
    simp only at hstep
    omega

/-- Path length is bounded by the number of nodes, so the call-site
fuel `nodes.length + 1` is sufficient. -/
theorem boundaryPath_fuel (t : MCTree)
    (hord : ∀ e ∈ t.edges, t.breadthFirstTraversal.indexOf e.1 <
      t.breadthFirstTraversal.indexOf e.2)
    (hEbfs : ∀ e ∈ t.edges, e.2 ∈ t.breadthFirstTraversal) :
    ∀ n x y, BoundaryPath t root n x y → n < t.nodes.length + 1 := by
  have hlen : ∀ fuel q, (bfsAux t fuel q).length ≤ fuel := by
    intro fuel
    induction fuel with
    | zero => intro q; simp [bfsAux]
    | succ fuel ih =>
      intro q
      match q with
      | [] => simp [bfsAux]
      | n :: rest =>
        simp only [bfsAux, List.length_cons]
        exact Nat.succ_le_succ (ih _)
  intro n x y hpath
  match n, hpath with
  | 0, _ => omega
  | n + 1, hpath =>
    obtain ⟨z, hz1, hz2, hz3⟩ := boundaryPath_snoc t _ _ _ hpath
    have hidx := boundaryPath_idx t hord _ _ _ hpath
    have hymem : y ∈ t.breadthFirstTraversal :=
      hEbfs _ (edge_of_mem_getChildren t _ _ hz3)
    have hylt : t.breadthFirstTraversal.indexOf y < t.breadthFirstTraversal.length :=
      List.indexOf_lt_length.2 hymem
    have hble : t.breadthFirstTraversal.length ≤ t.nodes.length := by
      unfold breadthFirstTraversal
      exact hlen _ _
    omega

end TraverseLemmas

section BfsCoverage

open MCTree

theorem children_nodup (u : MCTree) (hW1 : (u.edges.map Prod.snd).Nodup) (x : Nat) :
    (u.getChildren x).Nodup := by
  unfold getChildren
  exact hW1.sublist ((List.filter_sublist _).map Prod.snd)

theorem unique_parent (u : MCTree) (hW1 : (u.edges.map Prod.snd).Nodup)
    {a b c : Nat} (h1 : b ∈ u.getChildren a) (h2 : b ∈ u.getChildren c) : a = c := by
  have e1 := edge_of_mem_getChildren u a b h1
  have e2 := edge_of_mem_getChildren u c b h2
  have heq := nodup_map_snd_inj hW1 _ e1 _ e2 rfl
  exact congrArg Prod.fst heq

theorem nodup_length_le (l l2 : List Nat) (h : l.Nodup) (hs : ∀ x ∈ l, x ∈ l2) :
    l.length ≤ l2.length := by
  classical
  calc l.length = l.toFinset.card := (List.toFinset_card_of_nodup h).symm
  _ ≤ l2.toFinset.card := by
      apply Finset.card_le_card
      intro x hx
      rw [List.mem_toFinset] at hx ⊢
      exact hs x hx
  _ ≤ l2.length := l2.toFinset_card_le

theorem descPath_closed (u : MCTree) (done : List Nat)
    (hclos : ∀ d ∈ done, ∀ c ∈ u.getChildren d, c ∈ done) :
    ∀ x y, DescPath u x y → x ∈ done → y ∈ done := by
  intro x y hpath
  induction hpath with
  | base x => exact id
  | step hc _ ih => exact fun hx => ih (hclos _ hx _ hc)

/-- Breadth-first search from a queue, with the already-yielded prefix
`done` as ghost state: on a graph with unique in-edges, none of them
into the queued root, the search reaches every descendant of the
queue. -/
theorem bfsAux_covers (u : MCTree)
    (hW1 : (u.edges.map Prod.snd).Nodup)
    (hW2 : ∀ e ∈ u.edges, e.2 ≠ u.rootId)
    (hW3 : ∀ e ∈ u.edges, e.1 ∈ u.nodes ∧ e.2 ∈ u.nodes)
    (hW5 : u.nodes.Nodup) :
    ∀ fuel queue done,
      (done ++ queue).Nodup →
      (∀ z ∈ done ++ queue, z ∈ u.nodes) →
      (∀ d ∈ done, ∀ c ∈ u.getChildren d, c ∈ done ∨ c ∈ queue) →
      (∀ q ∈ queue, q = u.rootId ∨ ∃ d ∈ done, q ∈ u.getChildren d) →
      (∀ d ∈ done, d = u.rootId ∨ ∃ d2 ∈ done, d ∈ u.getChildren d2) →
      u.nodes.length ≤ fuel + done.length →
      ∀ x q0, q0 ∈ done ++ queue → DescPath u q0 x →
        x ∈ done ∨ x ∈ bfsAux u fuel queue := by
  intro fuel
  induction fuel with
  | zero =>
    intro queue done hnd hmem hclos hprovQ hprovD hfuel x q0 hq0 hpath
    have hle : (done ++ queue).length ≤ u.nodes.length :=
      nodup_length_le _ _ hnd hmem
    rw [List.length_append] at hle
    have hqnil : queue = [] := by
      rcases queue with _ | ⟨a, b⟩
      · rfl
      · exfalso
        simp at hle
        omega
    subst hqnil
    left
    rw [List.append_nil] at hq0
    refine descPath_closed u done ?_ q0 x hpath hq0
    intro d hd c hc
    rcases hclos d hd c hc with h | h
    · exact h
    · exact absurd h (List.not_mem_nil _)
  | succ fuel ih =>
    intro queue done hnd hmem hclos hprovQ hprovD hfuel x q0 hq0 hpath
    match queue with
    | [] =>
      left
      rw [List.append_nil] at hq0
      refine descPath_closed u done ?_ q0 x hpath hq0
      intro d hd c hc
      rcases hclos d hd c hc with h | h
      · exact h
      · exact absurd h (List.not_mem_nil _)
    | q :: rest =>
      have hndQ : (done ++ q :: rest).Nodup := hnd
      rw [List.nodup_append] at hndQ
      have hqnotdone : q ∉ done := fun h => hndQ.2.2 h (List.mem_cons_self _ _)
      have hqnotrest : q ∉ rest := (List.nodup_cons.1 hndQ.2.1).1
      -- the freshly enqueued children are brand new
      have hchild_not_done : ∀ c ∈ u.getChildren q, c ∉ done := by
        intro c hc hcdone
        rcases hprovD c hcdone with h | ⟨d2, hd2, hcd2⟩
        · exact hW2 _ (edge_of_mem_getChildren u q c hc) h
        · exact hqnotdone ((unique_parent u hW1 hcd2 hc) ▸ hd2)
      have hchild_not_queue : ∀ c ∈ u.getChildren q, c ∉ q :: rest := by
        intro c hc hcq
        rcases hprovQ c hcq with h | ⟨d, hd, hcd⟩
        · exact hW2 _ (edge_of_mem_getChildren u q c hc) h
        · exact hqnotdone ((unique_parent u hW1 hcd hc) ▸ hd)
      -- invariants for the next step
      have hnd2 : ((done ++ [q]) ++ (rest ++ u.getChildren q)).Nodup := by
        rw [List.nodup_append]
        refine ⟨?_, ?_, ?_⟩
        · exact hnd.sublist (((List.nil_sublist rest).cons₂ q).append_left done)
        · rw [List.nodup_append]
          refine ⟨(List.nodup_cons.1 hndQ.2.1).2, children_nodup u hW1 q, ?_⟩
          intro a ha hac
          exact hchild_not_queue a hac (List.mem_cons_of_mem _ ha)
        · intro a ha hac
          rcases List.mem_append.1 ha with ha | ha
          · rcases List.mem_append.1 hac with hac | hac
            · exact hndQ.2.2 ha (List.mem_cons_of_mem _ hac)
            · exact hchild_not_done a hac ha
          · rw [List.mem_singleton] at ha
            subst ha
            rcases List.mem_append.1 hac with hac | hac
            · exact hqnotrest hac
            · exact hchild_not_queue a hac (List.mem_cons_self _ _)
      have hmem2 : ∀ z ∈ (done ++ [q]) ++ (rest ++ u.getChildren q), z ∈ u.nodes := by
        intro z hz
        rcases List.mem_append.1 hz with hz | hz
        · rcases List.mem_append.1 hz with hz | hz
          · exact hmem z (List.mem_append_left _ hz)
          · rw [List.mem_singleton] at hz
            subst hz
            exact hmem z (List.mem_append_right _ (List.mem_cons_self _ _))
        · rcases List.mem_append.1 hz with hz | hz
          · exact hmem z (List.mem_append_right _ (List.mem_cons_of_mem _ hz))
          · exact (hW3 _ (edge_of_mem_getChildren u q z hz)).2
      have hclos2 : ∀ d ∈ done ++ [q], ∀ c ∈ u.getChildren d,
          c ∈ done ++ [q] ∨ c ∈ rest ++ u.getChildren q := by
        intro d hd c hc
        rcases List.mem_append.1 hd with hd | hd
        · rcases hclos d hd c hc with h | h
          · exact Or.inl (List.mem_append_left _ h)
          · rcases List.mem_cons.1 h with rfl | h
            · exact Or.inl (List.mem_append_right _ (List.mem_singleton_self _))
            · exact Or.inr (List.mem_append_left _ h)
        · rw [List.mem_singleton] at hd
          subst hd
          exact Or.inr (List.mem_append_right _ hc)
      have hprovQ2 : ∀ p ∈ rest ++ u.getChildren q,
          p = u.rootId ∨ ∃ d ∈ done ++ [q], p ∈ u.getChildren d := by
        intro p hp
        rcases List.mem_append.1 hp with hp | hp
        · rcases hprovQ p (List.mem_cons_of_mem _ hp) with h | ⟨d, hd, hpd⟩
          · exact Or.inl h
          · exact Or.inr ⟨d, List.mem_append_left _ hd, hpd⟩
        · exact Or.inr ⟨q, List.mem_append_right _ (List.mem_singleton_self _), hp⟩
      have hprovD2 : ∀ d ∈ done ++ [q], d = u.rootId ∨
          ∃ d2 ∈ done ++ [q], d ∈ u.getChildren d2 := by
        intro d hd
        rcases List.mem_append.1 hd with hd | hd
        · rcases hprovD d hd with h | ⟨d2, hd2, hdd2⟩
          · exact Or.inl h
          · exact Or.inr ⟨d2, List.mem_append_left _ hd2, hdd2⟩
        · rw [List.mem_singleton] at hd
          subst hd
          rcases hprovQ d (List.mem_cons_self _ _) with h | ⟨d2, hd2, hdd2⟩
          · exact Or.inl h
          · exact Or.inr ⟨d2, List.mem_append_left _ hd2, hdd2⟩
      have hfuel2 : u.nodes.length ≤ fuel + (done ++ [q]).length := by
        rw [List.length_append]
        simp only [List.length_singleton]
        omega
      have hq02 : q0 ∈ (done ++ [q]) ++ (rest ++ u.getChildren q) := by
        rcases List.mem_append.1 hq0 with h | h
        · exact List.mem_append_left _ (List.mem_append_left _ h)
        · rcases List.mem_cons.1 h with rfl | h
          · exact List.mem_append_left _
              (List.mem_append_right _ (List.mem_singleton_self _))
          · exact List.mem_append_right _ (List.mem_append_left _ h)
      rcases ih (rest ++ u.getChildren q) (done ++ [q]) hnd2 hmem2 hclos2 hprovQ2
          hprovD2 hfuel2 x q0 hq02 hpath with h | h
      · rcases List.mem_append.1 h with h | h
        · exact Or.inl h
        · rw [List.mem_singleton] at h
          subst h
          right
          show x ∈ x :: bfsAux u fuel (rest ++ u.getChildren x)
          exact List.mem_cons_self _ _
      · right
        show x ∈ q :: bfsAux u fuel (rest ++ u.getChildren q)
        exact List.mem_cons_of_mem _ h

/-- Breadth-first traversal coverage on a tree: every descendant of the
root is visited. -/
theorem bfs_covers (u : MCTree)
    (hW1 : (u.edges.map Prod.snd).Nodup)
    (hW2 : ∀ e ∈ u.edges, e.2 ≠ u.rootId)
    (hW3 : ∀ e ∈ u.edges, e.1 ∈ u.nodes ∧ e.2 ∈ u.nodes)
    (hW4 : u.rootId ∈ u.nodes)
    (hW5 : u.nodes.Nodup) :
    ∀ x, DescPath u u.rootId x → x ∈ u.breadthFirstTraversal := by
  intro x hpath
  have h := bfsAux_covers u hW1 hW2 hW3 hW5 u.nodes.length [u.rootId] []
    (by simp) (by simpa using hW4) (by simp) (by simp) (by simp) (by simp)
    x u.rootId (by simp) hpath
  rcases h with h | h
  · exact absurd h (List.not_mem_nil _)
  · exact h

end BfsCoverage

section ExtractLemmas

open MCTree

theorem find?_unique {l : List Nat} {p : Nat → Bool} {r : Nat}
    (hmem : r ∈ l) (hp : p r = true) (huniq : ∀ n ∈ l, p n = true → n = r) :
    l.find? p = some r := by
  induction l with
  | nil => cases hmem
  | cons a tl ih =>
    rcases ha : p a with _ | _
    · have har : a ≠ r := fun h => by rw [h, hp] at ha; cases ha
      rw [List.find?_cons_of_neg _ (by simp [ha])]
      refine ih ?_ (fun n hn hpn => huniq n (List.mem_cons_of_mem _ hn) hpn)
      rcases List.mem_cons.1 hmem with h | h
      · exact absurd h.symm har
      · exact h
    · rw [List.find?_cons_of_pos _ ha]
      rw [huniq a (List.mem_cons_self _ _) ha]

theorem boundaryPath_zero (t : MCTree) {root x y : Nat}
    (h : BoundaryPath t root 0 x y) : y = x := by
  cases h
  rfl

theorem boundaryPath_append_step (t : MCTree) {root : Nat} :
    ∀ m x z c, BoundaryPath t root m x z → (z = root ∨ z ∉ t.subtreeRoots) →
      c ∈ t.getChildren z → BoundaryPath t root (m + 1) x c := by
  intro m
  induction m with
  | zero =>
    intro x z c hpath hcond hc
    have := boundaryPath_zero t hpath
    subst this
    exact BoundaryPath.step hcond hc (BoundaryPath.base c)
  | succ m ih =>
    intro x z c hpath hcond hc
    cases hpath with
    | step hcond2 hc2 htail =>
      exact BoundaryPath.step hcond2 hc2 (ih _ _ _ htail hcond hc)

end ExtractLemmas

section CopyLemmas

open MCTree

theorem copy_nodes (t : MCTree) (sub : List Nat) :
    (subgraphCopy t sub).nodes = t.nodes.filter (fun n => decide (n ∈ sub)) := rfl

theorem copy_edges (t : MCTree) (sub : List Nat) :
    (subgraphCopy t sub).edges =
      t.edges.filter (fun e => decide (e.1 ∈ sub) && decide (e.2 ∈ sub)) := rfl

theorem copy_mem_nodes (t : MCTree) (sub : List Nat) (x : Nat) :
    x ∈ (subgraphCopy t sub).nodes ↔ x ∈ t.nodes ∧ x ∈ sub := by
  rw [copy_nodes]
  simp [List.mem_filter]

theorem copy_children (t : MCTree) (sub : List Nat) (z c : Nat) :
    c ∈ (subgraphCopy t sub).getChildren z ↔ ((z, c) ∈ t.edges ∧ z ∈ sub ∧ c ∈ sub) := by
  simp only [getChildren, copy_edges, List.mem_map, List.mem_filter, Bool.and_eq_true,
    decide_eq_true_eq, beq_iff_eq]
  constructor
  · rintro ⟨⟨a, b⟩, ⟨⟨he, h1, h2⟩, hz⟩, rfl⟩
    simp only at hz h1 h2
    subst hz
    exact ⟨he, h1, h2⟩
  · rintro ⟨he, h1, h2⟩
    exact ⟨(z, c), ⟨⟨he, h1, h2⟩, rfl⟩, rfl⟩

theorem copy_name_mem (t : MCTree) (sub : List Nat) (n : Nat) (h : n ∈ sub) :
    (subgraphCopy t sub).getName n = t.getName n := by
  unfold getName
  have : (subgraphCopy t sub).name n = if n ∈ sub then t.name n else none := rfl
  rw [this, if_pos h]

end CopyLemmas

section ExtractAssembly

open MCTree

/-- A boundary path of the host tree whose start lies in the collected
subtree stays inside the copy: every intermediate node is collected, so
every traversed edge survives the induced-subgraph filter. -/
theorem boundaryPath_descPath_copy (t : MCTree) (root : Nat) (sub : List Nat)
    (hsub : sub = t.traverseSubtree (t.nodes.length + 1) root root)
    (hord : ∀ e ∈ t.edges, t.breadthFirstTraversal.indexOf e.1 <
      t.breadthFirstTraversal.indexOf e.2)
    (hEbfs : ∀ e ∈ t.edges, e.2 ∈ t.breadthFirstTraversal) :
    ∀ n z x, BoundaryPath t root n z x → z ∈ sub →
      DescPath (subgraphCopy t sub) z x := by
  intro n z x hpath
  induction hpath with
  | base w =>
    intro _
    exact DescPath.base w
  | @step w c y m hcond hc htail ih =>
    intro hw
    obtain ⟨m0, hm0⟩ := traverse_sound t _ root root w (hsub ▸ hw)
    have hext := boundaryPath_append_step t m0 root w c hm0 hcond hc
    have hfuel := boundaryPath_fuel t hord hEbfs (m0 + 1) root c hext
    have hcsub : c ∈ sub := by
      rw [hsub]
      exact traverse_complete t (m0 + 1) root c root _ hext hfuel
    have hcc : c ∈ (subgraphCopy t sub).getChildren w :=
      (copy_children t sub w c).2 ⟨edge_of_mem_getChildren t w c hc, hw, hcsub⟩
    exact DescPath.step hcc (ih hcsub)

end ExtractAssembly

section C7Theorem

open MCTree

/-- C7: on a partitioned tree — distinctly named subtree roots that are
registered nodes, tree-shaped edges (unique parents, endpoints in the
node set, no-dup nodes, parents before children in breadth-first
order) — extracting a registered subtree-root name yields a copy whose
root is the node of that name, whose node set is exactly the original
nodes reachable by descent that never crosses a nested subtree-root
boundary, and whose subtree-root membership on the copied nodes
coincides with the original's. -/
theorem extractSubTree_spec (t : MCTree) (qname : String) (root : Nat)
    (hlookup : t.nameToId qname = some root)
    (hname : t.getName root = qname)
    (hrootSub : root ∈ t.subtreeRoots)
    (hrootmem : root ∈ t.nodes)
    (hW1 : (t.edges.map Prod.snd).Nodup)
    (hEN : ∀ e ∈ t.edges, e.1 ∈ t.nodes ∧ e.2 ∈ t.nodes)
    (hNnd : t.nodes.Nodup)
    (hord : ∀ e ∈ t.edges, t.breadthFirstTraversal.indexOf e.1 <
      t.breadthFirstTraversal.indexOf e.2)
    (hEbfs : ∀ e ∈ t.edges, e.2 ∈ t.breadthFirstTraversal)
    (hsubmem : ∀ r ∈ t.subtreeRoots, r ∈ t.nodes)
    (hinj : ∀ a ∈ t.nodes, ∀ b ∈ t.nodes, a ∈ t.subtreeRoots →
      t.getName a = t.getName b → a = b) :
    ∃ T, t.extractSubTree qname = .ok T ∧
      T.rootId = root ∧
      T.getName T.rootId = qname ∧
      (∀ x, x ∈ T.nodes ↔ (x ∈ t.nodes ∧ boundedDescendant t root x)) ∧
      (∀ x ∈ T.nodes, (x ∈ T.subtreeRoots ↔ x ∈ t.subtreeRoots)) := by
  obtain ⟨sub, hsub⟩ : ∃ sub, sub = t.traverseSubtree (t.nodes.length + 1) root root :=
    ⟨_, rfl⟩
  have Fsound : ∀ x ∈ sub, ∃ n, BoundaryPath t root n root x := by
    intro x hx
    exact traverse_sound t _ root root x (hsub ▸ hx)
  have Fcomp : ∀ n x, BoundaryPath t root n root x → x ∈ sub := by
    intro n x h
    rw [hsub]
    exact traverse_complete t n root x root _ h (boundaryPath_fuel t hord hEbfs n root x h)
  have hrootsub : root ∈ sub := Fcomp 0 root (BoundaryPath.base root)
  have Fdecomp : ∀ e ∈ (subgraphCopy t sub).edges, e ∈ t.edges ∧ e.1 ∈ sub ∧ e.2 ∈ sub := by
    intro e he
    rw [copy_edges] at he
    refine ⟨List.mem_of_mem_filter he, ?_⟩
    have h2 := List.of_mem_filter he
    simpa using h2
  have F3 : ∀ e ∈ (subgraphCopy t sub).edges, e.2 ≠ root := by
    intro e he hcon
    obtain ⟨het, h1, _⟩ := Fdecomp e he
    obtain ⟨m, hm⟩ := Fsound e.1 h1
    have hidx1 := boundaryPath_idx t hord m root e.1 hm
    have hstep := hord e het
    rw [hcon] at hstep
    omega
  have F4 : ∀ x ∈ sub, x ≠ root → ∃ z, (z, x) ∈ (subgraphCopy t sub).edges := by
    intro x hx hne
    obtain ⟨m, hm⟩ := Fsound x hx
    match m, hm with
    | 0, hm => exact absurd (boundaryPath_zero t hm) hne
    | m + 1, hm =>
      obtain ⟨z, hz1, hz2, hz3⟩ := boundaryPath_snoc t m root x hm
      have hzsub : z ∈ sub := Fcomp m z hz1
      have hedge : (z, x) ∈ t.edges := edge_of_mem_getChildren t z x hz3
      exact ⟨z, edge_of_mem_getChildren _ z x
        ((copy_children t sub z x).2 ⟨hedge, hzsub, hx⟩)⟩
  have hroot : (subgraphCopy t sub).rootId = root := by
    have heq : (subgraphCopy t sub).rootId =
        ((subgraphCopy t sub).nodes.find? (fun n =>
          (subgraphCopy t sub).edges.all (fun e => !(e.2 == n)))).getD 0 := rfl
    have hfind : (subgraphCopy t sub).nodes.find? (fun n =>
        (subgraphCopy t sub).edges.all (fun e => !(e.2 == n))) = some root := by
      refine find?_unique ((copy_mem_nodes t sub root).2 ⟨hrootmem, hrootsub⟩) ?_ ?_
      · rw [List.all_eq_true]
        intro e he
        simpa using F3 e he
      · intro n hn hp
        by_contra hne
        obtain ⟨z, hz⟩ := F4 n ((copy_mem_nodes t sub n).1 hn).2 hne
        rw [List.all_eq_true] at hp
        have := hp (z, n) hz
        simp at this
    rw [heq, hfind]
    rfl
  have hW2' : ∀ e ∈ (subgraphCopy t sub).edges, e.2 ≠ (subgraphCopy t sub).rootId := by
    intro e he
    rw [hroot]
    exact F3 e he
  have hW1' : ((subgraphCopy t sub).edges.map Prod.snd).Nodup := by
    rw [copy_edges]
    exact hW1.sublist ((List.filter_sublist _).map _)
  have hW3' : ∀ e ∈ (subgraphCopy t sub).edges,
      e.1 ∈ (subgraphCopy t sub).nodes ∧ e.2 ∈ (subgraphCopy t sub).nodes := by
    intro e he
    obtain ⟨het, h1, h2⟩ := Fdecomp e he
    exact ⟨(copy_mem_nodes t sub e.1).2 ⟨(hEN e het).1, h1⟩,
      (copy_mem_nodes t sub e.2).2 ⟨(hEN e het).2, h2⟩⟩
  have hW4' : (subgraphCopy t sub).rootId ∈ (subgraphCopy t sub).nodes := by
    rw [hroot]
    exact (copy_mem_nodes t sub root).2 ⟨hrootmem, hrootsub⟩
  have hW5' : (subgraphCopy t sub).nodes.Nodup := by
    rw [copy_nodes]
    exact hNnd.filter _
  have hbfscov : ∀ x ∈ sub, x ∈ (subgraphCopy t sub).breadthFirstTraversal := by
    intro x hx
    obtain ⟨m, hm⟩ := Fsound x hx
    have hdesc : DescPath (subgraphCopy t sub) root x :=
      boundaryPath_descPath_copy t root sub hsub hord hEbfs m root x hm hrootsub
    refine bfs_covers _ hW1' hW2' hW3' hW4' hW5' x ?_
    rw [hroot]
    exact hdesc
  refine ⟨assignSubtreeRootNames (subgraphCopy t sub) t.getSubtreeRootNames,
    ?_, ?_, ?_, ?_, ?_⟩
  · rw [hsub]
    unfold extractSubTree
    rw [hlookup]
  · exact hroot
  · have h1 : (assignSubtreeRootNames (subgraphCopy t sub) t.getSubtreeRootNames).rootId =
        (subgraphCopy t sub).rootId := rfl
    have h2 : ∀ n, (assignSubtreeRootNames (subgraphCopy t sub)
        t.getSubtreeRootNames).getName n = (subgraphCopy t sub).getName n := fun _ => rfl
    rw [h1, h2, hroot, copy_name_mem t sub root hrootsub]
    exact hname
  · intro x
    have h1 : (assignSubtreeRootNames (subgraphCopy t sub) t.getSubtreeRootNames).nodes =
        (subgraphCopy t sub).nodes := rfl
    rw [h1]
    constructor
    · intro hx
      obtain ⟨hxn, hxs⟩ := (copy_mem_nodes t sub x).1 hx
      exact ⟨hxn, Fsound x hxs⟩
    · rintro ⟨hxn, n, hp⟩
      exact (copy_mem_nodes t sub x).2 ⟨hxn, Fcomp n x hp⟩
  · intro x hx
    have h1 : (assignSubtreeRootNames (subgraphCopy t sub) t.getSubtreeRootNames).nodes =
        (subgraphCopy t sub).nodes := rfl
    rw [h1] at hx
    obtain ⟨hxn, hxs⟩ := (copy_mem_nodes t sub x).1 hx
    have hT : x ∈ (assignSubtreeRootNames (subgraphCopy t sub)
        t.getSubtreeRootNames).subtreeRoots ↔
        (x ∈ (subgraphCopy t sub).breadthFirstTraversal ∧
          (subgraphCopy t sub).getName x ∈ t.getSubtreeRootNames) := by
      show x ∈ (subgraphCopy t sub).breadthFirstTraversal.filter _ ↔ _
      simp [List.mem_filter]
    rw [hT]
    constructor
    · rintro ⟨_, hnm⟩
      rw [copy_name_mem t sub x hxs] at hnm
      unfold getSubtreeRootNames at hnm
      obtain ⟨r, hr, hreq⟩ := List.mem_map.1 hnm
      have := hinj r (hsubmem r hr) x hxn hr hreq
      rw [← this]
      exact hr
    · intro hxr
      refine ⟨hbfscov x hxs, ?_⟩
      rw [copy_name_mem t sub x hxs]
      unfold getSubtreeRootNames
      exact List.mem_map_of_mem _ hxr

end C7Theorem

theorem extractSubTree_spec_witness :
    ∃ T, treeC7.extractSubTree "Anc1" = .ok T ∧
      T.rootId = 1 ∧
      T.getName T.rootId = "Anc1" ∧
      (∀ x, x ∈ T.nodes ↔ (x ∈ treeC7.nodes ∧ MCTree.boundedDescendant treeC7 1 x)) ∧
      (∀ x ∈ T.nodes, (x ∈ T.subtreeRoots ↔ x ∈ treeC7.subtreeRoots)) :=
  extractSubTree_spec treeC7 "Anc1" 1 (by decide) (by decide) (by decide) (by decide)
    (by decide) (by decide) (by decide) (by decide) (by decide) (by decide) (by decide)

